import Mathlib

/-!
# Verification of the FoundationDB Blob Manager (`BlobManager.actor.cpp`)

A shallow embedding of the Blob Manager's pure core logic:

* `KeyRangeMap<V>` (the interval map from `fdbclient/KeyRangeMap.h`) is
  modelled as a sorted list of boundary entries `(key, value)`; keys are
  modelled as natural numbers ordered as the lexicographic byte-string
  order orders keys.  The map covers `[0, lastKey)` where the final entry
  is the sentinel boundary at the map's end key (the constructor
  `KeyRangeMap(defaultValue, endKey)` seeds `[(0, default), (endKey, default)]`).
* `handleClientBlobRange` / `updateClientBlobRanges` follow the source
  line by line (part_001:241-347).
* `addAssignment` follows part_001:1592-1646.
* the `maybeSplitRange` persistence transaction follows part_001:1009-1233.
* `downsampleSplit` follows part_001:984-1007.
* `splitRange` follows part_001:438-511.
* the seqno draws of `rangeAssigner` follow part_001:685-693.
* the prune-intent clear step of `pruneRange` follows part_001:2685-2711.
-/

/-! ## Interval map core (`KeyRangeMap<V>`) -/

/-- A `KeyRangeMap<V>` as its sorted boundary list: entry `(k, v)` means the
value `v` applies from `k` up to the next boundary.  The last entry is the
sentinel at the map's end key. -/
abbrev KRMap (V : Type) := List (Nat × V)

/-- Value covering key `k`: the value of the last boundary at or before `k`
(`rangeContaining`).  `none` when `k` is below the first boundary. -/
def krmLookup {V : Type} : KRMap V → Nat → Option V
  | [], _ => none
  | (a, v) :: rest, k =>
    if k < a then none else some ((krmLookup rest k).getD v)

/-- Boundary keys of the map. -/
def krmKeys {V : Type} (m : KRMap V) : List Nat := m.map Prod.fst

/-- `KeyRangeMap::insert(range, v)`: replace the value over `[a, b)`,
fragmenting the neighbours; the old value covering `b` is re-established
at boundary `b`. -/
def krmInsert {V : Type} (m : KRMap V) (a b : Nat) (v : V) : KRMap V :=
  if b ≤ a then m
  else
    m.filter (fun p => p.1 < a)
      ++ (a, v) :: (b, (krmLookup m b).getD v) :: m.filter (fun p => b < p.1)

/-- The stored intervals `(begin, end, value)` in key order (`ranges()`). -/
def krmIntervals {V : Type} (m : KRMap V) : List (Nat × Nat × V) :=
  (m.zip m.tail).map (fun pq => (pq.1.1, pq.2.1, pq.1.2))

/-- `intersectingRanges(Range(x, y))`: every stored interval overlapping
`[x, y)`. -/
def krmIntersecting {V : Type} (m : KRMap V) (x y : Nat) : List (Nat × Nat × V) :=
  (krmIntervals m).filter (fun i => decide (x < i.2.1) && decide (i.1 < y))

/-- `coalesce`: drop interior boundaries that repeat the previous value;
the sentinel (last) boundary is always kept. -/
def krmCoalesceAux {V : Type} [DecidableEq V] (v : V) : KRMap V → KRMap V
  | [] => []
  | [q] => [q]
  | q :: r :: t => if q.2 = v then krmCoalesceAux v (r :: t)
                   else q :: krmCoalesceAux q.2 (r :: t)

def krmCoalesce {V : Type} [DecidableEq V] : KRMap V → KRMap V
  | [] => []
  | p :: rest => p :: krmCoalesceAux p.2 rest

/-! ### Map invariant -/

/-- Invariant for a `KeyRangeMap` whose sentinel end boundary is at least `E`:
strictly sorted boundaries, first boundary at key 0, and some boundary at or
above `E`. -/
def krmInv {V : Type} (m : KRMap V) (E : Nat) : Prop :=
  m.Pairwise (fun p q => p.1 < q.1) ∧ (m.head?.map Prod.fst = some 0) ∧
    ∃ p ∈ m, E ≤ p.1

instance {V : Type} (m : KRMap V) (E : Nat) : Decidable (krmInv m E) := by
  unfold krmInv
  infer_instance

/-! ## ClientRangeMonitor: `handleClientBlobRange` / `updateClientBlobRanges`
(part_001:241-347).  Keys are Nats; `normalKeys.begin` is 0 and
`normalKeys.end` is the parameter `nEnd`.  A DB entry's value is modelled as
the Bool `value == "1"`. -/

/-- part_001:241-277.  Returns the updated `knownBlobRanges` together with the
ranges appended to `rangesToAdd` and `rangesToRemove`. -/
def handleClientBlobRange (knownBlobRanges : KRMap Bool) (rangeStart rangeEnd : Nat)
    (rangeActive : Bool) : KRMap Bool × List (Nat × Nat) × List (Nat × Nat) :=
  let allRanges := krmIntersecting knownBlobRanges rangeStart rangeEnd
  let overlaps := (allRanges.filter (fun r => r.2.2 != rangeActive)).map
      (fun r => (max r.1 rangeStart, min rangeEnd r.2.1))
  (krmInsert knownBlobRanges rangeStart rangeEnd rangeActive,
   if rangeActive then overlaps else [],
   if rangeActive then [] else overlaps)

/-- The `for (i = 0; i < size - 1; i++)` loop of part_001:309-335, consuming
consecutive DB boundary pairs; `break` on a start key at or past `nEnd`. -/
def updateLoopPairs (nEnd : Nat) (m : KRMap Bool) :
    List ((Nat × Bool) × (Nat × Bool)) → KRMap Bool × List (Nat × Nat) × List (Nat × Nat)
  | [] => (m, [], [])
  | ((a, v), (b, _)) :: rest =>
    if nEnd ≤ a then (m, [], [])
    else
      let e := min b nEnd
      let r1 := handleClientBlobRange m a e v
      let r2 := updateLoopPairs nEnd r1.1 rest
      (r2.1, r1.2.1 ++ r2.2.1, r1.2.2 ++ r2.2.2)

/-- part_001:305-308: handle the gap `[normalKeys.begin, firstDbKey)` as
inactive, when nonempty. -/
def ucbrStep0 (m : KRMap Bool) (k0 : Nat) :
    KRMap Bool × List (Nat × Nat) × List (Nat × Nat) :=
  if 0 < k0 then handleClientBlobRange m 0 k0 false else (m, [], [])

/-- part_001:336-344: handle the gap `[lastDbKey, normalKeys.end)` as
inactive, when nonempty. -/
def ucbrStep2 (m : KRMap Bool) (nEnd lastKey : Nat) :
    KRMap Bool × List (Nat × Nat) × List (Nat × Nat) :=
  if lastKey < nEnd then handleClientBlobRange m lastKey nEnd false
  else (m, [], [])

/-- part_001:279-347: the empty-DB special case resets everything to
inactive; otherwise the leading gap, every consecutive boundary pair, and
the trailing gap are handled in order, and the map is coalesced. -/
def updateClientBlobRanges (m : KRMap Bool) (nEnd : Nat) (db : List (Nat × Bool)) :
    KRMap Bool × List (Nat × Nat) × List (Nat × Nat) :=
  match db with
  | [] =>
    (krmCoalesce (handleClientBlobRange m 0 nEnd false).1,
     (handleClientBlobRange m 0 nEnd false).2.1,
     (handleClientBlobRange m 0 nEnd false).2.2)
  | (k0, v0) :: restDb =>
    (krmCoalesce (ucbrStep2 (updateLoopPairs nEnd (ucbrStep0 m k0).1
        (((k0, v0) :: restDb).zip ((k0, v0) :: restDb).tail)).1
        nEnd (((k0, v0) :: restDb).getLast (by simp)).1).1,
     (ucbrStep0 m k0).2.1
       ++ (updateLoopPairs nEnd (ucbrStep0 m k0).1
            (((k0, v0) :: restDb).zip ((k0, v0) :: restDb).tail)).2.1
       ++ (ucbrStep2 (updateLoopPairs nEnd (ucbrStep0 m k0).1
            (((k0, v0) :: restDb).zip ((k0, v0) :: restDb).tail)).1
            nEnd (((k0, v0) :: restDb).getLast (by simp)).1).2.1,
     (ucbrStep0 m k0).2.2
       ++ (updateLoopPairs nEnd (ucbrStep0 m k0).1
            (((k0, v0) :: restDb).zip ((k0, v0) :: restDb).tail)).2.2
       ++ (ucbrStep2 (updateLoopPairs nEnd (ucbrStep0 m k0).1
            (((k0, v0) :: restDb).zip ((k0, v0) :: restDb).tail)).1
            nEnd (((k0, v0) :: restDb).getLast (by simp)).1).2.2)

/-- Key `k` is covered by some emitted range of `L`. -/
def coveredBy (L : List (Nat × Nat)) (k : Nat) : Bool :=
  L.any (fun r => decide (r.1 ≤ k) && decide (k < r.2))

/-- The DB segment value covering `k`: the value of the consecutive boundary
pair `[a, b)` with `a ≤ k < b`, if any. -/
def dbSeg (db : List (Nat × Bool)) (k : Nat) : Option Bool :=
  ((db.zip db.tail).find? (fun pq => decide (pq.1.1 ≤ k) && decide (k < pq.2.1))).map
    (fun pq => pq.1.2)

/-- Whether the DB range state marks key `k` active. -/
def dbActive (db : List (Nat × Bool)) (k : Nat) : Bool := (dbSeg db k).getD false

/-! ## Blob manager operations (recovery, splits, client ranges, pruning) -/

/-- `knownBlobRanges(false, normalKeys.end)` (part_001:427): the whole normal
key space starts inactive. -/
def initKnownBlobRanges (nEnd : Nat) : KRMap Bool := [(0, false), (nEnd, false)]

/-- Successive `updateClientBlobRanges` calls of the ClientRangeMonitor loop,
threading `knownBlobRanges` and collecting each call's emitted
`(rangesToAdd, rangesToRemove)`. -/
def updateSteps (m : KRMap Bool) (nEnd : Nat) :
    List (List (Nat × Bool)) → KRMap Bool × List (List (Nat × Nat) × List (Nat × Nat))
  | [] => (m, [])
  | db :: rest =>
    let r := updateClientBlobRanges m nEnd db
    let r2 := updateSteps r.1 nEnd rest
    (r2.1, (r.2.1, r.2.2) :: r2.2)

/-- Apply the emitted add/remove ranges of each step, in order, to an initial
per-key active state. -/
def applyEmissions (active0 : Bool)
    (steps : List (List (Nat × Nat) × List (Nat × Nat))) (k : Nat) : Bool :=
  steps.foldl (fun acc st =>
    if coveredBy st.1 k then true else if coveredBy st.2 k then false else acc) active0

/-- Value stored in the recovery assignment `KeyRangeMap`:
`std::tuple<UID, int64_t, int64_t>` = `(worker, epoch, seqno)`.
The invalid `UID()` is modelled as worker 0. -/
structure Assignment where
  worker : Nat
  epoch : Int
  seqno : Int
deriving DecidableEq

/-- part_001:1605: the stored interval is strictly newer than the incoming
`(newEpoch, newSeqno)`. -/
def assignNewer (newEpoch newSeqno : Int) (ov : Assignment) : Prop :=
  ov.epoch > newEpoch ∨ (ov.epoch = newEpoch ∧ ov.seqno > newSeqno)

instance (newEpoch newSeqno : Int) (ov : Assignment) :
    Decidable (assignNewer newEpoch newSeqno ov) := by
  unfold assignNewer
  infer_instance

/-- part_001:1606-1607: the forced-reassign special case: granule mapping
sentinel `(0, 1)`, a valid incoming worker that disagrees with the stored
one, and stored bounds exactly equal to the new range. -/
def assignSpecial (newId : Nat) (newEpoch newSeqno : Int) (a b : Nat)
    (iv : Nat × Nat × Assignment) : Prop :=
  newId ≠ iv.2.2.worker ∧ newId ≠ 0 ∧ newEpoch = 0 ∧ newSeqno = 1 ∧
    iv.1 = a ∧ iv.2.1 = b

instance (newId : Nat) (newEpoch newSeqno : Int) (a b : Nat)
    (iv : Nat × Nat × Assignment) :
    Decidable (assignSpecial newId newEpoch newSeqno a b iv) := by
  unfold assignSpecial
  infer_instance

/-- The scan over intersecting intervals in part_001:1598-1626: collects the
`newer` re-insertions, the `allNewer` flag and the `outOfDate` entries;
`none` models the `ASSERT(oldEpoch != newEpoch || oldSeqno != newSeqno)`
failure at part_001:1619. -/
def addAssignmentScan (newId : Nat) (newEpoch newSeqno : Int) (a b : Nat) :
    List (Nat × Nat × Assignment) →
    Option (List ((Nat × Nat) × Assignment) × Bool × List (Nat × Nat × Nat))
  | [] => some ([], true, [])
  | (s, e, ov) :: rest =>
    if assignNewer newEpoch newSeqno ov then
      if assignSpecial newId newEpoch newSeqno a b (s, e, ov) then
        match addAssignmentScan newId newEpoch newSeqno a b rest with
        | none => none
        | some (newer, _, ood) =>
          some (((s, e), ⟨0, ov.epoch, ov.seqno⟩) :: newer, false, ood)
      else
        match addAssignmentScan newId newEpoch newSeqno a b rest with
        | none => none
        | some (newer, allNewer, ood) => some (((s, e), ov) :: newer, allNewer, ood)
    else
      if newId ≠ 0 ∧ ov.epoch = newEpoch ∧ ov.seqno = newSeqno then none
      else
        match addAssignmentScan newId newEpoch newSeqno a b rest with
        | none => none
        | some (newer, _, ood) =>
          some (newer, false,
            (if ov.worker ≠ 0 ∧ (ov.epoch < newEpoch ∨
                (ov.epoch = newEpoch ∧ ov.seqno < newSeqno))
             then [(ov.worker, s, e)] else []) ++ ood)

/-- part_001:1592-1646.  `none` models recovery aborting on the assertion;
otherwise returns the updated map and the `outOfDate` entries appended. -/
def addAssignment (map : KRMap Assignment) (a b : Nat) (newId : Nat)
    (newEpoch newSeqno : Int) :
    Option (KRMap Assignment × List (Nat × Nat × Nat)) :=
  match addAssignmentScan newId newEpoch newSeqno a b (krmIntersecting map a b) with
  | none => none
  | some (newer, allNewer, ood) =>
    if ¬ allNewer then
      some ((newer.foldl (fun acc r => krmInsert acc r.1.1 r.1.2 r.2)
          (krmInsert map a b ⟨newId, newEpoch, newSeqno⟩)),
        ood ++ (if newer ≠ [] ∧ newId ≠ 0 then [(newId, a, b)] else []))
    else
      some (map, ood ++ (if newId ≠ 0 then [(newId, a, b)] else []))

/-- Strict lexicographic order on `(epoch, seqno)` lock pairs. -/
def lockPairLt (p q : Int × Int) : Prop := p.1 < q.1 ∨ (p.1 = q.1 ∧ p.2 < q.2)

instance (p q : Int × Int) : Decidable (lockPairLt p q) := by
  unfold lockPairLt
  infer_instance

/-- Non-strict lexicographic order on `(epoch, seqno)` lock pairs. -/
def lockPairLe (p q : Int × Int) : Prop := p.1 < q.1 ∨ (p.1 = q.1 ∧ p.2 ≤ q.2)

instance (p q : Int × Int) : Decidable (lockPairLe p q) := by
  unfold lockPairLe
  infer_instance

/-- part_001:984-1007: recursive median downsampling of split boundaries. -/
def downsampleSplit (splits : List Nat) (startIdx endIdx remaining : Nat) : List Nat :=
  if h0 : remaining = 0 then []
  else if endIdx - startIdx = remaining then (splits.drop startIdx).take remaining
  else
    let mid := (startIdx + endIdx) / 2
    let startCount := (remaining - 1) / 2
    let endCount := remaining - startCount - 1
    downsampleSplit splits startIdx mid startCount
      ++ splits.getD mid 0 :: downsampleSplit splits (mid + 1) endIdx endCount
termination_by remaining
decreasing_by
  all_goals omega

/-- part_001:1042-1062: enforce the max split fanout of 10 by keeping the
first and last boundaries and downsampling the interior. -/
def maybeSplitRangeCoalesce (newRanges : List Nat) : List Nat :=
  let maxSplitFanout := 10
  if newRanges.length ≥ maxSplitFanout + 2 then
    newRanges.headD 0
      :: (downsampleSplit newRanges 1 (newRanges.length - 1) (maxSplitFanout - 1)
          ++ [newRanges.getLastD 0])
  else newRanges

/-- The writes of a committed `maybeSplitRange` transaction
(part_001:1155-1193): the granule lock, the special boundary marker value,
the boundary keys, the per-child split records `(parent, child)` and the
per-child history entries
`(childRange, latestVersion, childId, (parentRange, parentStartVersion))`. -/
structure SplitTxnWrites where
  lock : Int × Int × Nat
  specialBoundaryValue : Int × Int
  boundaryKeys : List Nat
  splitRecords : List (Nat × Nat)
  historyEntries : List ((Nat × Nat) × Int × Nat × ((Nat × Nat) × Int))
deriving DecidableEq

def splitTxnWriteSet (bmEpoch : Int) (granuleRange : Nat × Nat) (granuleID : Nat)
    (granuleStartVersion latestVersion : Int) (newRanges : List Nat)
    (newGranuleIDs : List Nat) (splitSeqno newLockSeqno : Int)
    (prevGranuleId : Nat) : SplitTxnWrites :=
  { lock := (bmEpoch, newLockSeqno, prevGranuleId)
    specialBoundaryValue := (bmEpoch, splitSeqno)
    boundaryKeys := (newRanges.take (newRanges.length - 1)) ++ [newRanges.getLastD 0]
    splitRecords := newGranuleIDs.map (fun g => (granuleID, g))
    historyEntries := (List.range (newRanges.length - 1)).map (fun i =>
      ((newRanges.getD i 0, newRanges.getD (i + 1) 0), latestVersion,
        newGranuleIDs.getD i 0, (granuleRange, granuleStartVersion))) }

/-- Outcome of one `maybeSplitRange` persistence transaction attempt
(part_001:1091-1212). -/
inductive SplitTxnOutcome where
  | replaced
  | assertFailed
  | committed (w : SplitTxnWrites)
deriving DecidableEq

/-- One attempt of the transaction body (part_001:1098-1195): check the
granule lock epoch, check the lock-seqno assertion (strict on the first
attempt, non-strict on a retry of an unknown-result commit), then write the
new lock and the split metadata. -/
def splitTxnAttempt (bmEpoch : Int) (granuleRange : Nat × Nat) (granuleID : Nat)
    (granuleStartVersion latestVersion : Int) (newRanges : List Nat)
    (newGranuleIDs : List Nat) (splitSeqno newLockSeqno : Int) (isRetry : Bool)
    (prevGranuleLock : Int × Int × Nat) : SplitTxnOutcome :=
  if prevGranuleLock.1 > bmEpoch then .replaced
  else if isRetry then
    if bmEpoch > prevGranuleLock.1
        ∨ (bmEpoch = prevGranuleLock.1 ∧ newLockSeqno ≥ prevGranuleLock.2.1) then
      .committed (splitTxnWriteSet bmEpoch granuleRange granuleID granuleStartVersion
        latestVersion newRanges newGranuleIDs splitSeqno newLockSeqno
        prevGranuleLock.2.2)
    else .assertFailed
  else
    if bmEpoch > prevGranuleLock.1
        ∨ (bmEpoch = prevGranuleLock.1 ∧ newLockSeqno > prevGranuleLock.2.1) then
      .committed (splitTxnWriteSet bmEpoch granuleRange granuleID granuleStartVersion
        latestVersion newRanges newGranuleIDs splitSeqno newLockSeqno
        prevGranuleLock.2.2)
    else .assertFailed

/-- How one transaction attempt ends, as seen by the retry loop. -/
inductive TxnFate where
  | retryNoCommit
  | retryUnknownCommit
  | ok
deriving DecidableEq

/-- The retry loop of part_001:1091-1212.  Child granule ids, the split
seqno and the new lock seqno are fixed before the loop; each attempt
re-reads the owner lock (supplied by the environment per attempt, together
with that attempt's fate).  Returns the write-sets actually applied to the
DB: an `ok` attempt applies its writes and stops; an unknown-result commit
may have applied its writes and is retried; a clean failure applies
nothing and is retried. -/
def maybeSplitRangeRun (bmEpoch : Int) (granuleRange : Nat × Nat) (granuleID : Nat)
    (granuleStartVersion latestVersion : Int) (newRanges : List Nat)
    (newGranuleIDs : List Nat) (splitSeqno newLockSeqno : Int) :
    List ((Int × Int × Nat) × TxnFate) → Bool → List SplitTxnWrites
  | [], _ => []
  | (lock, fate) :: rest, isRetry =>
    match splitTxnAttempt bmEpoch granuleRange granuleID granuleStartVersion
        latestVersion newRanges newGranuleIDs splitSeqno newLockSeqno isRetry lock with
    | .replaced => []
    | .assertFailed => []
    | .committed w =>
      match fate with
      | .ok => [w]
      | .retryUnknownCommit =>
        w :: maybeSplitRangeRun bmEpoch granuleRange granuleID granuleStartVersion
          latestVersion newRanges newGranuleIDs splitSeqno newLockSeqno rest true
      | .retryNoCommit =>
        maybeSplitRangeRun bmEpoch granuleRange granuleID granuleStartVersion
          latestVersion newRanges newGranuleIDs splitSeqno newLockSeqno rest true

/-- A `RangeAssignment` intent (part_001:376-384), reduced to the fields the
seqno claims depend on. -/
structure RangeAssignment where
  isAssign : Bool
  keyRange : Nat × Nat
  worker : Option Nat
deriving DecidableEq

/-- The consecutive boundary pairs of a splitter result. -/
def consecutivePairs (keys : List Nat) : List (Nat × Nat) := keys.zip keys.tail

/-- part_001:808-856: `writeInitialGranuleMapping` persists
`[boundaries[i], boundaries[i+1]) → UID()` for every consecutive pair, in
chunked transactions; the net persisted ranges are all consecutive pairs. -/
def writeInitialGranuleMapping (boundaries : List Nat) : List (Nat × Nat) :=
  consecutivePairs boundaries

/-- part_001:920-947: the effect of processing one added client range in
`monitorClientRanges`: the splitter output is persisted unchanged and one
Normal Assign per consecutive boundary pair is enqueued. -/
structure ClientAdditionEffect where
  persistedMappingRanges : List (Nat × Nat)
  assignsEnqueued : List RangeAssignment
deriving DecidableEq

def processClientRangeAddition (splits : List Nat) : ClientAdditionEffect :=
  { persistedMappingRanges := writeInitialGranuleMapping splits
    assignsEnqueued := (consecutivePairs splits).map (fun r =>
      { isAssign := true, keyRange := r, worker := none }) }

/-- part_001:1214-1233: after the split transaction commits, a targeted
revoke of the parent and one Assign per child range are enqueued. -/
def maybeSplitRangePostAssignments (currentWorkerId : Nat) (granuleRange : Nat × Nat)
    (newRanges : List Nat) : List RangeAssignment :=
  { isAssign := false, keyRange := granuleRange, worker := some currentWorkerId }
    :: (consecutivePairs newRanges).map (fun r =>
        { isAssign := true, keyRange := r, worker := none })

/-- The seqno draw sites that consume `bmData->seqNo`. -/
inductive SeqnoDraw where
  | queueEvent (ra : RangeAssignment)
  | splitSeqnoDraw
  | splitLockDraw
deriving DecidableEq

/-- Every draw takes the current counter value and increments it by one:
`rangeAssigner` does this once per event consumed from the `rangesToAssign`
queue in FIFO order (part_001:691-693), and `maybeSplitRange` does it for
the split seqno (part_001:1086-1087) and the new lock seqno
(part_001:1123-1125). -/
def drawSeqnos (seqNo : Int) : List SeqnoDraw → List (SeqnoDraw × Int)
  | [] => []
  | d :: rest => (d, seqNo) :: drawSeqnos (seqNo + 1) rest

/-- part_001:438-511.  The storage metrics estimate and the stream of split
points from `splitStorageMetricsStream` are environment inputs; `none`
models the `ASSERT`s at part_001:491-493 rejecting a malformed stream. -/
def splitRange (rBegin rEnd : Nat) (estimatedBytes targetBytes : Int)
    (writeHot : Bool) (streamKeys : List Nat) : Option (List Nat) :=
  if estimatedBytes > targetBytes ∨ writeHot = true then
    if 2 ≤ streamKeys.length ∧ streamKeys.head? = some rBegin
        ∧ streamKeys.getLast? = some rEnd
    then some streamKeys
    else none
  else some [rBegin, rEnd]

/-- Keys as byte strings, for the prune-intent clear step. -/
abbrev ByteKey := List Nat

/-- part_001:2689-2711: the clear step of `pruneRange`.  It reads the
intent at `pruneIntentKey = blobGranulePruneKeys.begin.withSuffix(startKey)`
and, when the persisted `(version, force)` still equals the processed pair,
issues `tr.clear(pruneIntentKey.withPrefix(blobGranulePruneKeys.begin))`.
Returns the key read and the list of keys cleared. -/
def pruneRangeClearStep (pruneKeysBegin startKey : ByteKey)
    (persisted processed : Int × Bool) : ByteKey × List ByteKey :=
  (pruneKeysBegin ++ startKey,
   if persisted = processed then [pruneKeysBegin ++ (pruneKeysBegin ++ startKey)]
   else [])

/-- Union of all added ranges emitted by a sequence of update steps. -/
def joinedAdds (steps : List (List (Nat × Nat) × List (Nat × Nat))) :
    List (Nat × Nat) :=
  (steps.map Prod.fst).flatten

/-- Union of all removed ranges emitted by a sequence of update steps. -/
def joinedRemoves (steps : List (List (Nat × Nat) × List (Nat × Nat))) :
    List (Nat × Nat) :=
  (steps.map Prod.snd).flatten

/-! ## Interval map lemmas -/

/-! ### Lookup lemmas -/

theorem krmLookup_append_left {V : Type} (xs ys : KRMap V) (k : Nat)
    (h : krmLookup ys k = none) : krmLookup (xs ++ ys) k = krmLookup xs k := by
  induction xs with
  | nil => simpa using h
  | cons p xs ih =>
    obtain ⟨a, v⟩ := p
    simp only [List.cons_append, krmLookup, List.append_eq]
    rw [ih]

theorem krmLookup_append_right {V : Type} (xs ys : KRMap V) (k : Nat) (w : V)
    (h : krmLookup ys k = some w) (hxs : ∀ x ∈ xs, x.1 ≤ k) :
    krmLookup (xs ++ ys) k = some w := by
  induction xs with
  | nil => simpa using h
  | cons p xs ih =>
    obtain ⟨a, v⟩ := p
    have ha : a ≤ k := hxs (a, v) (by simp)
    simp only [List.cons_append, krmLookup, List.append_eq, if_neg (by omega : ¬ k < a)]
    rw [ih (fun x hx => hxs x (by simp [hx]))]
    simp

/-- Keys at or above `a > k` never affect lookup of `k`: filtering to keys
`< a` preserves the result for sorted maps. -/
theorem krmLookup_filter_lt {V : Type} (m : KRMap V) (a k : Nat)
    (hs : (krmKeys m).Pairwise (· < ·)) (hk : k < a) :
    krmLookup (m.filter (fun p => p.1 < a)) k = krmLookup m k := by
  induction m with
  | nil => simp
  | cons p rest ih =>
    obtain ⟨b, v⟩ := p
    simp only [krmKeys, List.map_cons, List.pairwise_cons] at hs
    by_cases hb : b < a
    · simp only [List.filter_cons, decide_eq_true_eq, if_pos hb, krmLookup]
      rw [ih hs.2]
    · -- b ≥ a > k: head rejects k; keys of rest all exceed b ≥ a, so filter is []
      have hrest : rest.filter (fun p => p.1 < a) = [] := by
        refine List.filter_eq_nil_iff.mpr (fun q hq => ?_)
        have : b < q.1 := hs.1 q.1 (List.mem_map_of_mem Prod.fst hq)
        simp; omega
      have h1 : ((b, v) :: rest).filter (fun p => p.1 < a) = [] := by
        simp only [List.filter_cons, decide_eq_true_eq, if_neg hb, hrest]
      rw [h1]
      simp only [krmLookup, if_pos (by omega : k < b)]

/-- Lookup at `k ≥ b` factors through the entries above `b` with the value
covering `b` as default (sorted maps). -/
theorem krmLookup_filter_gt {V : Type} (m : KRMap V) (b k : Nat) (w : V)
    (hs : (krmKeys m).Pairwise (· < ·)) (hb : krmLookup m b = some w) (hk : b ≤ k) :
    krmLookup m k = some ((krmLookup (m.filter (fun p => b < p.1)) k).getD w) := by
  induction m generalizing w with
  | nil => simp [krmLookup] at hb
  | cons p rest ih =>
    obtain ⟨c, v⟩ := p
    simp only [krmKeys, List.map_cons, List.pairwise_cons] at hs
    simp only [krmLookup] at hb
    by_cases hcb : b < c
    · rw [if_pos hcb] at hb
      exact Option.noConfusion hb
    · rw [if_neg hcb] at hb
      have hck : ¬ k < c := by omega
      simp only [List.filter_cons, decide_eq_true_eq, if_neg hcb, krmLookup, if_neg hck]
      cases ho : krmLookup rest b with
      | some u =>
        rw [ho] at hb
        simp only [Option.getD_some] at hb
        injection hb with hb
        subst hb
        rw [ih u hs.2 ho]
        simp
      | none =>
        rw [ho] at hb
        simp only [Option.getD_none] at hb
        injection hb with hb
        subst hb
        -- no key of rest is ≤ b: rest is empty or its head key is > b
        cases rest with
        | nil => simp
        | cons q t =>
          obtain ⟨d, u⟩ := q
          have hd : b < d := by
            by_contra hcon
            simp only [krmLookup, if_neg (by omega : ¬ b < d)] at ho
            exact Option.noConfusion ho
          have hkeep : ((d, u) :: t).filter (fun p => b < p.1) = (d, u) :: t := by
            refine List.filter_eq_self.mpr (fun r hr => ?_)
            rcases List.mem_cons.mp hr with h | h
            · subst h; simpa using hd
            · have hpair := hs.2
              simp only [krmKeys, List.map_cons, List.pairwise_cons] at hpair
              have : d < r.1 := hpair.1 r.1 (List.mem_map_of_mem Prod.fst h)
              simp; omega
          rw [hkeep]

/-- The central insert/lookup law: after `krmInsert m a b v`, key `k` reads
`v` inside `[a, b)` and its old value outside. -/
theorem krmLookup_krmInsert {V : Type} (m : KRMap V) (a b k : Nat) (v w0 : V)
    (hs : (krmKeys m).Pairwise (· < ·)) (hab : a < b)
    (h0 : krmLookup m b = some w0) :
    krmLookup (krmInsert m a b v) k =
      if a ≤ k ∧ k < b then some v else krmLookup m k := by
  have hins : krmInsert m a b v =
      m.filter (fun p => p.1 < a)
        ++ (a, v) :: (b, (krmLookup m b).getD v) :: m.filter (fun p => b < p.1) := by
    unfold krmInsert
    rw [if_neg (by omega)]
  rw [hins, h0]
  simp only [Option.getD_some]
  by_cases hk1 : k < a
  · rw [if_neg (by omega)]
    rw [krmLookup_append_left]
    · exact krmLookup_filter_lt m a k hs hk1
    · simp [krmLookup, if_pos hk1]
  · by_cases hk2 : k < b
    · rw [if_pos ⟨by omega, hk2⟩]
      refine krmLookup_append_right _ _ _ v ?_ ?_
      · simp [krmLookup, if_neg (by omega : ¬ k < a), if_pos hk2]
      · intro x hx
        have : x.1 < a := by simpa using (List.mem_filter.mp hx).2
        omega
    · -- k ≥ b
      rw [if_neg (by omega)]
      have hmain : krmLookup ((a, v) :: (b, w0) :: m.filter (fun p => b < p.1)) k
          = some ((krmLookup (m.filter (fun p => b < p.1)) k).getD w0) := by
        simp [krmLookup, if_neg (by omega : ¬ k < a), if_neg (by omega : ¬ k < b)]
      rw [krmLookup_append_right _ _ _ _ hmain ?nxt]
      · exact (krmLookup_filter_gt m b k w0 hs h0 (by omega)).symm
      · intro x hx
        have : x.1 < a := by simpa using (List.mem_filter.mp hx).2
        omega

theorem keys_pairwise {V : Type} (m : KRMap V)
    (h : m.Pairwise (fun p q => p.1 < q.1)) : (krmKeys m).Pairwise (· < ·) := by
  simpa [krmKeys, List.pairwise_map] using h

theorem krmLookup_cons {V : Type} (a : Nat) (v : V) (rest : KRMap V) (k : Nat) :
    krmLookup ((a, v) :: rest) k
      = if k < a then none else some ((krmLookup rest k).getD v) := rfl

theorem krmLookup_isSome_of_head0 {V : Type} (m : KRMap V) (k : Nat)
    (h : m.head?.map Prod.fst = some 0) : (krmLookup m k).isSome := by
  cases m with
  | nil => simp at h
  | cons p rest =>
    obtain ⟨a, v⟩ := p
    simp only [List.head?_cons, Option.map_some'] at h
    injection h with h
    have ha : a = 0 := h
    subst ha
    simp [krmLookup_cons]

theorem krmInv_krmInsert {V : Type} (m : KRMap V) (a b E : Nat) (v : V)
    (hinv : krmInv m E) (hab : a < b) (hbE : b ≤ E) :
    krmInv (krmInsert m a b v) E := by
  obtain ⟨hs, hh, pE, hpE, hE⟩ := hinv
  have hins : krmInsert m a b v =
      m.filter (fun p => p.1 < a)
        ++ (a, v) :: (b, (krmLookup m b).getD v) :: m.filter (fun p => b < p.1) := by
    unfold krmInsert
    rw [if_neg (by omega)]
  refine ⟨?_, ?_, ?_⟩
  · -- sortedness
    rw [hins, List.pairwise_append]
    refine ⟨List.Pairwise.sublist (List.filter_sublist m) hs, ?_, ?_⟩
    · rw [List.pairwise_cons]
      constructor
      · intro q hq
        rcases List.mem_cons.mp hq with hq | hq
        · subst hq; exact hab
        · have := (List.mem_filter.mp hq).2
          simp only [decide_eq_true_eq] at this
          omega
      · rw [List.pairwise_cons]
        refine ⟨fun q hq => by
          have := (List.mem_filter.mp hq).2
          simp only [decide_eq_true_eq] at this
          omega, List.Pairwise.sublist (List.filter_sublist m) hs⟩
    · intro x hx y hy
      have hxa : x.1 < a := by
        have := (List.mem_filter.mp hx).2
        simpa using this
      simp only [List.mem_cons] at hy
      rcases hy with hy | hy | hy
      · subst hy; omega
      · subst hy; omega
      · have := (List.mem_filter.mp hy).2
        simp only [decide_eq_true_eq] at this
        omega
  · -- head at 0
    rw [hins]
    cases m with
    | nil => simp at hh
    | cons p rest =>
      obtain ⟨c, w⟩ := p
      simp only [List.head?_cons, Option.map_some'] at hh
      injection hh with hh
      have hc : c = 0 := hh
      subst hc
      by_cases ha : 0 < a
      · simp [List.filter_cons, ha]
      · have ha0 : a = 0 := by omega
        subst ha0
        simp [List.filter_cons]
  · -- a boundary at or above E survives
    rw [hins]
    by_cases hpb : b < pE.1
    · exact ⟨pE, by
        refine List.mem_append.mpr (Or.inr ?_)
        refine List.mem_cons.mpr (Or.inr ?_)
        refine List.mem_cons.mpr (Or.inr ?_)
        exact List.mem_filter.mpr ⟨hpE, by simpa using hpb⟩, hE⟩
    · -- pE.1 ≤ b ≤ E ≤ pE.1 forces b = E
      exact ⟨(b, (krmLookup m b).getD v), by simp, by omega⟩

/-! ### Interval lemmas -/

theorem mem_of_mem_krmIntervals {V : Type} (m : KRMap V) (iv : Nat × Nat × V)
    (h : iv ∈ krmIntervals m) : (iv.1, iv.2.2) ∈ m := by
  unfold krmIntervals at h
  obtain ⟨pq, hpq, he⟩ := List.mem_map.mp h
  have := (List.of_mem_zip hpq).1
  subst he
  simpa using this

/-- The value of any stored interval containing `k` is the lookup at `k`. -/
theorem krmLookup_of_mem_intervals {V : Type} (m : KRMap V) (iv : Nat × Nat × V) (k : Nat)
    (hs : m.Pairwise (fun p q => p.1 < q.1)) (hmem : iv ∈ krmIntervals m)
    (h1 : iv.1 ≤ k) (h2 : k < iv.2.1) : krmLookup m k = some iv.2.2 := by
  induction m with
  | nil => simp [krmIntervals] at hmem
  | cons p rest ih =>
    cases rest with
    | nil => simp [krmIntervals] at hmem
    | cons q t =>
      obtain ⟨c, v⟩ := p
      obtain ⟨d, u⟩ := q
      have hmem' : iv = (c, d, v) ∨ iv ∈ krmIntervals ((d, u) :: t) := by
        unfold krmIntervals at hmem ⊢
        simpa using hmem
      rw [List.pairwise_cons] at hs
      rcases hmem' with he | hm
      · subst he
        have h1' : c ≤ k := h1
        have h2' : k < d := h2
        rw [krmLookup_cons, if_neg (by omega : ¬ k < c), krmLookup_cons,
          if_pos h2']
        rfl
      · have hkey : (iv.1, iv.2.2) ∈ (d, u) :: t := mem_of_mem_krmIntervals _ _ hm
        have hck : c < iv.1 := hs.1 _ hkey
        have hlk : krmLookup ((d, u) :: t) k = some iv.2.2 := ih hs.2 hm
        rw [krmLookup_cons, if_neg (by omega : ¬ k < c), hlk]
        rfl

/-- Every key at or above the first boundary and strictly below some boundary
is covered by a stored interval. -/
theorem exists_interval_of_lt {V : Type} (m : KRMap V) (k : Nat)
    (hs : m.Pairwise (fun p q => p.1 < q.1))
    (hhead : ∃ p, m.head? = some p ∧ p.1 ≤ k)
    (hup : ∃ p ∈ m, k < p.1) :
    ∃ iv ∈ krmIntervals m, iv.1 ≤ k ∧ k < iv.2.1 := by
  induction m with
  | nil => simp at hup
  | cons p rest ih =>
    obtain ⟨c, v⟩ := p
    obtain ⟨p0, hp0, hp0k⟩ := hhead
    simp only [List.head?_cons, Option.some.injEq] at hp0
    subst hp0
    have hck : c ≤ k := hp0k
    rw [List.pairwise_cons] at hs
    cases rest with
    | nil =>
      exfalso
      obtain ⟨q, hq, hkq⟩ := hup
      simp only [List.mem_cons, List.not_mem_nil, or_false] at hq
      subst hq
      have : k < c := hkq
      omega
    | cons q t =>
      obtain ⟨d, u⟩ := q
      by_cases hkd : k < d
      · refine ⟨(c, d, v), ?_, hck, hkd⟩
        unfold krmIntervals
        simp
      · have hup' : ∃ p ∈ (d, u) :: t, k < p.1 := by
          obtain ⟨r, hr, hkr⟩ := hup
          rcases List.mem_cons.mp hr with hr | hr
          · exfalso
            subst hr
            have hkc : k < c := hkr
            omega
          · exact ⟨r, hr, hkr⟩
        obtain ⟨iv, hiv, h1, h2⟩ :=
          ih hs.2 ⟨(d, u), by simp, Nat.not_lt.mp hkd⟩ hup'
        refine ⟨iv, ?_, h1, h2⟩
        unfold krmIntervals at hiv ⊢
        simpa using Or.inr hiv

/-! ### Coalesce lemmas -/

theorem krmCoalesceAux_lookup {V : Type} [DecidableEq V] (rest : KRMap V) (v : V) (k : Nat)
    (hs : rest.Pairwise (fun p q => p.1 < q.1)) :
    (krmLookup (krmCoalesceAux v rest) k).getD v = (krmLookup rest k).getD v := by
  induction rest generalizing v with
  | nil => simp [krmCoalesceAux]
  | cons q rest ih =>
    cases rest with
    | nil => simp [krmCoalesceAux]
    | cons r t =>
      obtain ⟨a, w⟩ := q
      obtain ⟨b, u⟩ := r
      rw [List.pairwise_cons] at hs
      have har : a < b := hs.1 (b, u) (by simp)
      by_cases hw : w = v
      · subst hw
        have hstep : krmCoalesceAux w ((a, w) :: (b, u) :: t)
            = krmCoalesceAux w ((b, u) :: t) := by
          simp [krmCoalesceAux]
        rw [hstep, ih w hs.2, krmLookup_cons a w ((b, u) :: t) k]
        by_cases hk : k < a
        · rw [if_pos hk, krmLookup_cons b u t k, if_pos (by omega : k < b)]
        · rw [if_neg hk]
          simp
      · have hstep : krmCoalesceAux v ((a, w) :: (b, u) :: t)
            = (a, w) :: krmCoalesceAux w ((b, u) :: t) := by
          simp [krmCoalesceAux, hw]
        rw [hstep, krmLookup_cons a w (krmCoalesceAux w ((b, u) :: t)) k,
          krmLookup_cons a w ((b, u) :: t) k]
        by_cases hk : k < a
        · rw [if_pos hk, if_pos hk]
        · rw [if_neg hk, if_neg hk]
          simp only [Option.getD_some]
          rw [ih w hs.2]

theorem krmLookup_krmCoalesce {V : Type} [DecidableEq V] (m : KRMap V) (k : Nat)
    (hs : m.Pairwise (fun p q => p.1 < q.1)) :
    krmLookup (krmCoalesce m) k = krmLookup m k := by
  cases m with
  | nil => rfl
  | cons p rest =>
    obtain ⟨a, v⟩ := p
    rw [List.pairwise_cons] at hs
    simp only [krmCoalesce]
    rw [krmLookup_cons a v (krmCoalesceAux v rest) k, krmLookup_cons a v rest k]
    by_cases hk : k < a
    · rw [if_pos hk, if_pos hk]
    · rw [if_neg hk, if_neg hk]
      rw [krmCoalesceAux_lookup rest v k hs.2]

theorem krmCoalesceAux_sublist {V : Type} [DecidableEq V] (rest : KRMap V) (v : V) :
    (krmCoalesceAux v rest).Sublist rest := by
  induction rest generalizing v with
  | nil => simp [krmCoalesceAux]
  | cons q rest ih =>
    cases rest with
    | nil => simp [krmCoalesceAux]
    | cons r t =>
      by_cases hw : q.2 = v
      · have hstep : krmCoalesceAux v (q :: r :: t) = krmCoalesceAux v (r :: t) := by
          simp [krmCoalesceAux, hw]
        rw [hstep]
        exact (ih v).cons q
      · have hstep : krmCoalesceAux v (q :: r :: t) = q :: krmCoalesceAux q.2 (r :: t) := by
          simp [krmCoalesceAux, hw]
        rw [hstep]
        exact (ih q.2).cons₂ q

theorem krmCoalesceAux_ne_nil {V : Type} [DecidableEq V] (l : KRMap V) (v : V)
    (h : l ≠ []) : krmCoalesceAux v l ≠ [] := by
  induction l generalizing v with
  | nil => exact absurd rfl h
  | cons q rest ih =>
    cases rest with
    | nil => simp [krmCoalesceAux]
    | cons r t =>
      by_cases hw : q.2 = v
      · have hstep : krmCoalesceAux v (q :: r :: t) = krmCoalesceAux v (r :: t) := by
          simp [krmCoalesceAux, hw]
        rw [hstep]
        exact ih v (by simp)
      · have hstep : krmCoalesceAux v (q :: r :: t) = q :: krmCoalesceAux q.2 (r :: t) := by
          simp [krmCoalesceAux, hw]
        rw [hstep]
        simp

theorem krmCoalesceAux_getLast {V : Type} [DecidableEq V] (l : KRMap V) (v : V) :
    l ≠ [] → (krmCoalesceAux v l).getLast? = l.getLast? := by
  induction l generalizing v with
  | nil => intro h; exact absurd rfl h
  | cons q rest ih =>
    intro _
    cases rest with
    | nil => simp [krmCoalesceAux]
    | cons r t =>
      by_cases hw : q.2 = v
      · have hstep : krmCoalesceAux v (q :: r :: t) = krmCoalesceAux v (r :: t) := by
          simp [krmCoalesceAux, hw]
        rw [hstep, ih v (by simp), List.getLast?_cons_cons]
      · have hstep : krmCoalesceAux v (q :: r :: t) = q :: krmCoalesceAux q.2 (r :: t) := by
          simp [krmCoalesceAux, hw]
        rw [hstep]
        have hne := krmCoalesceAux_ne_nil (r :: t) q.2 (by simp)
        cases hx : krmCoalesceAux q.2 (r :: t) with
        | nil => exact absurd hx hne
        | cons y ys =>
          rw [List.getLast?_cons_cons, ← hx, ih q.2 (by simp), List.getLast?_cons_cons]

theorem getLast_key_max {V : Type} (m : KRMap V)
    (hs : m.Pairwise (fun p q => p.1 < q.1)) :
    ∀ p ∈ m, ∃ z, m.getLast? = some z ∧ p.1 ≤ z.1 := by
  induction m with
  | nil => intro p hp; simp at hp
  | cons q rest ih =>
    intro p hp
    cases rest with
    | nil =>
      simp only [List.mem_cons, List.not_mem_nil, or_false] at hp
      subst hp
      exact ⟨p, by simp, le_refl _⟩
    | cons r t =>
      rw [List.pairwise_cons] at hs
      rcases List.mem_cons.mp hp with h | h
      · subst h
        obtain ⟨z, hz1, hz2⟩ := ih hs.2 r (by simp)
        refine ⟨z, by rw [List.getLast?_cons_cons]; exact hz1, ?_⟩
        have : p.1 < r.1 := hs.1 r (by simp)
        omega
      · obtain ⟨z, hz1, hz2⟩ := ih hs.2 p h
        exact ⟨z, by rw [List.getLast?_cons_cons]; exact hz1, hz2⟩

theorem krmInv_krmCoalesce {V : Type} [DecidableEq V] (m : KRMap V) (E : Nat)
    (hinv : krmInv m E) : krmInv (krmCoalesce m) E := by
  obtain ⟨hs, hh, pE, hpE, hE⟩ := hinv
  cases m with
  | nil => simp at hh
  | cons p rest =>
    refine ⟨?_, ?_, ?_⟩
    · have hsub : (krmCoalesce (p :: rest)).Sublist (p :: rest) := by
        simp only [krmCoalesce]
        exact (krmCoalesceAux_sublist rest p.2).cons₂ p
      exact List.Pairwise.sublist hsub hs
    · simpa [krmCoalesce] using hh
    · obtain ⟨z, hz1, hz2⟩ := getLast_key_max (p :: rest) hs pE hpE
      have hcl : (krmCoalesce (p :: rest)).getLast? = some z := by
        cases rest with
        | nil => simpa [krmCoalesce, krmCoalesceAux] using hz1
        | cons q t =>
          simp only [krmCoalesce]
          have hne := krmCoalesceAux_ne_nil (q :: t) p.2 (by simp)
          cases hx : krmCoalesceAux p.2 (q :: t) with
          | nil => exact absurd hx hne
          | cons y ys =>
            rw [List.getLast?_cons_cons, ← hx,
              krmCoalesceAux_getLast (q :: t) p.2 (by simp)]
            rw [List.getLast?_cons_cons] at hz1
            exact hz1
      have hz : z ∈ krmCoalesce (p :: rest) := by
        obtain ⟨hne, hzz⟩ := List.mem_getLast?_eq_getLast
          (l := krmCoalesce (p :: rest)) (by rw [Option.mem_def]; exact hcl)
        rw [hzz]
        exact List.getLast_mem hne
      exact ⟨z, hz, by omega⟩

theorem coveredBy_append (L1 L2 : List (Nat × Nat)) (k : Nat) :
    coveredBy (L1 ++ L2) k = (coveredBy L1 k || coveredBy L2 k) := by
  simp [coveredBy, List.any_append]

theorem coveredBy_iff (L : List (Nat × Nat)) (k : Nat) :
    coveredBy L k = true ↔ ∃ r ∈ L, r.1 ≤ k ∧ k < r.2 := by
  simp [coveredBy, List.any_eq_true]

/-! ### handleClientBlobRange lemmas -/

theorem handle_lookup (m : KRMap Bool) (s e E : Nat) (act : Bool) (k : Nat)
    (hinv : krmInv m E) (hse : s < e) :
    krmLookup (handleClientBlobRange m s e act).1 k
      = if s ≤ k ∧ k < e then some act else krmLookup m k := by
  obtain ⟨w0, hw0⟩ := Option.isSome_iff_exists.mp
    (krmLookup_isSome_of_head0 m e hinv.2.1)
  exact krmLookup_krmInsert m s e k act w0 (keys_pairwise m hinv.1) hse hw0

theorem handle_inv (m : KRMap Bool) (s e E : Nat) (act : Bool)
    (hinv : krmInv m E) (hse : s < e) (heE : e ≤ E) :
    krmInv (handleClientBlobRange m s e act).1 E :=
  krmInv_krmInsert m s e E act hinv hse heE

theorem handle_overlaps_iff (m : KRMap Bool) (s e E : Nat) (act : Bool) (k : Nat)
    (hinv : krmInv m E) (heE : e ≤ E) :
    coveredBy ((krmIntersecting m s e |>.filter (fun r => r.2.2 != act)).map
        (fun r => (max r.1 s, min e r.2.1))) k = true ↔
      (s ≤ k ∧ k < e ∧ krmLookup m k = some (!act)) := by
  obtain ⟨hsorted, hhead, pE, hpE, hE⟩ := hinv
  rw [coveredBy_iff]
  constructor
  · rintro ⟨r, hr, hrk1, hrk2⟩
    obtain ⟨iv, hivf, hre⟩ := List.mem_map.mp hr
    obtain ⟨hivm, hpred⟩ := List.mem_filter.mp hivf
    have hivI : iv ∈ krmIntervals m := (List.mem_filter.mp hivm).1
    subst hre
    simp only [max_le_iff, lt_min_iff] at hrk1 hrk2
    have hval : krmLookup m k = some iv.2.2 :=
      krmLookup_of_mem_intervals m iv k hsorted hivI hrk1.1 hrk2.2
    have hne : iv.2.2 = !act := by
      revert hpred
      cases iv.2.2 <;> cases act <;> simp
    exact ⟨hrk1.2, hrk2.1, by rw [hval, hne]⟩
  · rintro ⟨hsk, hke, hval⟩
    have hheadk : ∃ p, m.head? = some p ∧ p.1 ≤ k := by
      cases m with
      | nil => simp at hhead
      | cons p rest =>
        simp only [List.head?_cons, Option.map_some'] at hhead
        injection hhead with hhead
        exact ⟨p, rfl, by omega⟩
    obtain ⟨iv, hivI, hiv1, hiv2⟩ := exists_interval_of_lt m k hsorted hheadk
      ⟨pE, hpE, by omega⟩
    have hval' : krmLookup m k = some iv.2.2 :=
      krmLookup_of_mem_intervals m iv k hsorted hivI hiv1 hiv2
    have hveq : iv.2.2 = !act := by
      rw [hval'] at hval
      injection hval
    refine ⟨(max iv.1 s, min e iv.2.1), ?_, ?_, ?_⟩
    · refine List.mem_map.mpr ⟨iv, ?_, rfl⟩
      refine List.mem_filter.mpr ⟨?_, ?_⟩
      · unfold krmIntersecting
        refine List.mem_filter.mpr ⟨hivI, ?_⟩
        have h1 : s < iv.2.1 := by omega
        have h2 : iv.1 < e := by omega
        simp [h1, h2]
      · rw [hveq]
        cases act <;> simp
    · simp only [max_le_iff]
      exact ⟨hiv1, hsk⟩
    · simp only [lt_min_iff]
      exact ⟨hke, hiv2⟩

theorem handle_overlaps_start (m : KRMap Bool) (s e : Nat) (act : Bool) :
    ∀ x ∈ ((krmIntersecting m s e |>.filter (fun r => r.2.2 != act)).map
        (fun r => (max r.1 s, min e r.2.1))), s ≤ x.1 := by
  intro x hx
  obtain ⟨iv, _, hre⟩ := List.mem_map.mp hx
  subst hre
  simp

theorem handle_adds_iff (m : KRMap Bool) (s e E : Nat) (act : Bool) (k : Nat)
    (hinv : krmInv m E) (heE : e ≤ E) :
    coveredBy (handleClientBlobRange m s e act).2.1 k = true ↔
      (act = true ∧ s ≤ k ∧ k < e ∧ krmLookup m k = some false) := by
  cases act
  · simp [handleClientBlobRange, coveredBy]
  · simp only [handleClientBlobRange, if_pos]
    rw [handle_overlaps_iff m s e E true k hinv heE]
    simp

theorem handle_removes_iff (m : KRMap Bool) (s e E : Nat) (act : Bool) (k : Nat)
    (hinv : krmInv m E) (heE : e ≤ E) :
    coveredBy (handleClientBlobRange m s e act).2.2 k = true ↔
      (act = false ∧ s ≤ k ∧ k < e ∧ krmLookup m k = some true) := by
  cases act
  · simp only [handleClientBlobRange]
    rw [if_neg (by simp : ¬ (false = true))]
    rw [handle_overlaps_iff m s e E false k hinv heE]
    simp
  · simp [handleClientBlobRange, coveredBy]

theorem handle_starts (m : KRMap Bool) (s e : Nat) (act : Bool) :
    ∀ x ∈ (handleClientBlobRange m s e act).2.1 ++ (handleClientBlobRange m s e act).2.2,
      s ≤ x.1 := by
  intro x hx
  rcases List.mem_append.mp hx with hx | hx <;>
  · revert hx
    cases act <;>
    · simp only [handleClientBlobRange]
      first
      | (intro hx; exact handle_overlaps_start m s e _ x hx)
      | simp

theorem dbSeg_cons (a : Nat) (v : Bool) (d1 : Nat × Bool) (rest : List (Nat × Bool)) (k : Nat) :
    dbSeg ((a, v) :: d1 :: rest) k
      = if a ≤ k ∧ k < d1.1 then some v else dbSeg (d1 :: rest) k := by
  unfold dbSeg
  simp only [List.tail_cons, List.zip_cons_cons]
  by_cases h : a ≤ k ∧ k < d1.1
  · rw [if_pos h, List.find?_cons_of_pos]
    · rfl
    · simp [h.1, h.2]
  · rw [if_neg h, List.find?_cons_of_neg]
    rcases not_and_or.mp h with h1 | h1 <;> simp [h1]

theorem dbSeg_none_of_lt (db : List (Nat × Bool)) (k : Nat)
    (hs : (db.map Prod.fst).Pairwise (· < ·))
    (h : ∀ d0 ∈ db.head?, k < d0.1) : dbSeg db k = none := by
  cases db with
  | nil => rfl
  | cons d rest =>
    have hdk : k < d.1 := h d rfl
    unfold dbSeg
    rw [List.find?_eq_none.mpr ?_]
    · rfl
    · intro pq hpq
      have h1 : pq.1 ∈ d :: rest := (List.of_mem_zip hpq).1
      have hk1 : k < pq.1.1 := by
        rcases List.mem_cons.mp h1 with h2 | h2
        · rw [h2]; exact hdk
        · have : d.1 < pq.1.1 := by
            simp only [List.map_cons, List.pairwise_cons] at hs
            exact hs.1 pq.1.1 (List.mem_map_of_mem Prod.fst h2)
          omega
      simp only [Bool.and_eq_true, decide_eq_true_eq, not_and]
      omega

/-- Per-key characterisation of the pair loop of `updateClientBlobRanges`
(state, emitted adds, emitted removes, and a lower bound on emitted starts),
for a sorted DB state whose keys fit the normal key space. -/
theorem updateLoopPairs_spec (nEnd : Nat) (db : List (Nat × Bool)) (m : KRMap Bool)
    (hinv : krmInv m nEnd)
    (hs : (db.map Prod.fst).Pairwise (· < ·))
    (hle : ∀ p ∈ db, p.1 ≤ nEnd) :
    krmInv (updateLoopPairs nEnd m (db.zip db.tail)).1 nEnd ∧
    (∀ k, krmLookup (updateLoopPairs nEnd m (db.zip db.tail)).1 k
        = (dbSeg db k).elim (krmLookup m k) (fun v => some v)) ∧
    (∀ k, coveredBy (updateLoopPairs nEnd m (db.zip db.tail)).2.1 k = true ↔
        (dbSeg db k = some true ∧ krmLookup m k = some false)) ∧
    (∀ k, coveredBy (updateLoopPairs nEnd m (db.zip db.tail)).2.2 k = true ↔
        (dbSeg db k = some false ∧ krmLookup m k = some true)) ∧
    (∀ x ∈ (updateLoopPairs nEnd m (db.zip db.tail)).2.1
          ++ (updateLoopPairs nEnd m (db.zip db.tail)).2.2,
        ∀ d0 ∈ db.head?, d0.1 ≤ x.1) := by
  induction db generalizing m with
  | nil =>
    refine ⟨hinv, ?_, ?_, ?_, ?_⟩ <;> simp [updateLoopPairs, dbSeg, coveredBy]
  | cons d0 rest ih =>
    cases rest with
    | nil =>
      refine ⟨hinv, ?_, ?_, ?_, ?_⟩ <;> simp [updateLoopPairs, dbSeg, coveredBy]
    | cons d1 rest' =>
      obtain ⟨a, v⟩ := d0
      obtain ⟨b, w⟩ := d1
      have hab : a < b := by
        simp only [List.map_cons, List.pairwise_cons] at hs
        exact hs.1 b (by simp)
      have hbn : b ≤ nEnd := hle (b, w) (by simp)
      have han : ¬ nEnd ≤ a := by omega
      have hmin : min b nEnd = b := Nat.min_eq_left hbn
      have hstep : updateLoopPairs nEnd m ((((a, v) :: (b, w) :: rest').zip
            (((a, v) :: (b, w) :: rest').tail)))
          = (let r1 := handleClientBlobRange m a b v
             let r2 := updateLoopPairs nEnd r1.1 (((b, w) :: rest').zip ((b, w) :: rest').tail)
             (r2.1, r1.2.1 ++ r2.2.1, r1.2.2 ++ r2.2.2)) := by
        simp only [List.tail_cons, List.zip_cons_cons, updateLoopPairs, if_neg han, hmin]
        rfl
      rw [hstep]
      simp only []
      have hs' : (((b, w) :: rest').map Prod.fst).Pairwise (· < ·) := by
        simp only [List.map_cons, List.pairwise_cons] at hs ⊢
        exact ⟨hs.2.1, hs.2.2⟩
      have hle' : ∀ p ∈ (b, w) :: rest', p.1 ≤ nEnd := fun p hp => hle p (by simp [hp])
      have hinv1 : krmInv (handleClientBlobRange m a b v).1 nEnd :=
        handle_inv m a b nEnd v hinv hab hbn
      obtain ⟨ihInv, ihLookup, ihAdds, ihRemoves, ihStarts⟩ :=
        ih (handleClientBlobRange m a b v).1 hinv1 hs' hle'
      have hlk1 : ∀ k, krmLookup (handleClientBlobRange m a b v).1 k
          = if a ≤ k ∧ k < b then some v else krmLookup m k :=
        fun k => handle_lookup m a b nEnd v k hinv hab
      refine ⟨ihInv, ?_, ?_, ?_, ?_⟩
      · -- state
        intro k
        rw [ihLookup k, dbSeg_cons]
        by_cases hk : a ≤ k ∧ k < b
        · rw [if_pos (by simpa using hk)]
          have hnone : dbSeg ((b, w) :: rest') k = none :=
            dbSeg_none_of_lt _ k hs' (fun d hd => by
              injection hd with hd; rw [← hd]; exact hk.2)
          rw [hnone, hlk1 k, if_pos hk]
          rfl
        · rw [if_neg (by simpa using hk)]
          cases hseg : dbSeg ((b, w) :: rest') k with
          | some u => rfl
          | none =>
            simp only [Option.elim]
            rw [hlk1 k, if_neg hk]
      · -- adds
        intro k
        rw [coveredBy_append, Bool.or_eq_true, ihAdds k,
          handle_adds_iff m a b nEnd v k hinv hbn, dbSeg_cons]
        by_cases hk : a ≤ k ∧ k < b
        · rw [if_pos (by simpa using hk)]
          have hnone : dbSeg ((b, w) :: rest') k = none :=
            dbSeg_none_of_lt _ k hs' (fun d hd => by
              injection hd with hd; rw [← hd]; exact hk.2)
          rw [hnone, hlk1 k, if_pos hk]
          constructor
          · rintro (⟨hv, -, -, hl⟩ | ⟨hcon, -⟩)
            · exact ⟨by rw [hv], hl⟩
            · exact Option.noConfusion hcon
          · rintro ⟨hv, hl⟩
            injection hv with hv
            exact Or.inl ⟨hv, hk.1, hk.2, hl⟩
        · rw [if_neg (by simpa using hk)]
          rw [hlk1 k, if_neg hk]
          constructor
          · rintro (⟨-, h1, h2, -⟩ | h)
            · exact absurd ⟨h1, h2⟩ hk
            · exact h
          · exact fun h => Or.inr h
      · -- removes
        intro k
        rw [coveredBy_append, Bool.or_eq_true, ihRemoves k,
          handle_removes_iff m a b nEnd v k hinv hbn, dbSeg_cons]
        by_cases hk : a ≤ k ∧ k < b
        · rw [if_pos (by simpa using hk)]
          have hnone : dbSeg ((b, w) :: rest') k = none :=
            dbSeg_none_of_lt _ k hs' (fun d hd => by
              injection hd with hd; rw [← hd]; exact hk.2)
          rw [hnone, hlk1 k, if_pos hk]
          constructor
          · rintro (⟨hv, -, -, hl⟩ | ⟨hcon, -⟩)
            · exact ⟨by rw [hv], hl⟩
            · exact Option.noConfusion hcon
          · rintro ⟨hv, hl⟩
            injection hv with hv
            exact Or.inl ⟨hv, hk.1, hk.2, hl⟩
        · rw [if_neg (by simpa using hk)]
          rw [hlk1 k, if_neg hk]
          constructor
          · rintro (⟨-, h1, h2, -⟩ | h)
            · exact absurd ⟨h1, h2⟩ hk
            · exact h
          · exact fun h => Or.inr h
      · -- emitted starts are at or above the first DB key
        intro x hx d hd
        injection hd with hd
        subst hd
        simp only [List.mem_append] at hx
        have hcases : x ∈ (handleClientBlobRange m a b v).2.1
              ++ (handleClientBlobRange m a b v).2.2
            ∨ x ∈ (updateLoopPairs nEnd (handleClientBlobRange m a b v).1
                (((b, w) :: rest').zip ((b, w) :: rest').tail)).2.1
              ++ (updateLoopPairs nEnd (handleClientBlobRange m a b v).1
                (((b, w) :: rest').zip ((b, w) :: rest').tail)).2.2 := by
          rcases hx with (hx | hx) | (hx | hx)
          · exact Or.inl (List.mem_append.mpr (Or.inl hx))
          · exact Or.inr (List.mem_append.mpr (Or.inl hx))
          · exact Or.inl (List.mem_append.mpr (Or.inr hx))
          · exact Or.inr (List.mem_append.mpr (Or.inr hx))
        rcases hcases with hx' | hx'
        · exact handle_starts m a b v x hx'
        · have := ihStarts x hx' (b, w) rfl
          simp only at this
          omega

theorem dbSeg_some_head (db : List (Nat × Bool)) (k : Nat) (u : Bool)
    (hs : (db.map Prod.fst).Pairwise (· < ·))
    (h : dbSeg db k = some u) : ∀ d0 ∈ db.head?, d0.1 ≤ k := by
  intro d0 hd0
  unfold dbSeg at h
  obtain ⟨pq, hfind, hu⟩ := Option.map_eq_some'.mp h
  have hpred := List.find?_some hfind
  simp only [Bool.and_eq_true, decide_eq_true_eq] at hpred
  have hmem : pq.1 ∈ db := (List.of_mem_zip (List.mem_of_find?_eq_some hfind)).1
  cases db with
  | nil => simp at hd0
  | cons d rest =>
    injection hd0 with hd0
    subst hd0
    rcases List.mem_cons.mp hmem with h2 | h2
    · rw [h2] at hpred
      exact hpred.1
    · have hlt : d.1 < pq.1.1 := by
        simp only [List.map_cons, List.pairwise_cons] at hs
        exact hs.1 pq.1.1 (List.mem_map_of_mem Prod.fst h2)
      omega

theorem dbSeg_some_lt_last (db : List (Nat × Bool)) (k : Nat) (u : Bool)
    (hs : (db.map Prod.fst).Pairwise (· < ·))
    (h : dbSeg db k = some u) : ∃ z, db.getLast? = some z ∧ k < z.1 := by
  unfold dbSeg at h
  obtain ⟨pq, hfind, hu⟩ := Option.map_eq_some'.mp h
  have hpred := List.find?_some hfind
  simp only [Bool.and_eq_true, decide_eq_true_eq] at hpred
  have hmem : pq.2 ∈ db :=
    List.mem_of_mem_tail ((List.of_mem_zip (List.mem_of_find?_eq_some hfind)).2)
  have hspair : db.Pairwise (fun p q => p.1 < q.1) := by
    rw [List.pairwise_map] at hs
    exact hs
  obtain ⟨z, hz1, hz2⟩ := getLast_key_max db hspair pq.2 hmem
  exact ⟨z, hz1, by omega⟩

theorem dbSeg_none_of_ge_last (db : List (Nat × Bool)) (k : Nat) (z : Nat × Bool)
    (hs : (db.map Prod.fst).Pairwise (· < ·))
    (hz : db.getLast? = some z) (hk : z.1 ≤ k) : dbSeg db k = none := by
  cases h : dbSeg db k with
  | none => rfl
  | some u =>
    obtain ⟨z', hz1, hz2⟩ := dbSeg_some_lt_last db k u hs h
    rw [hz] at hz1
    injection hz1 with hz1
    subst hz1
    omega

theorem dbSeg_covers (db : List (Nat × Bool)) (k : Nat)
    (hs : (db.map Prod.fst).Pairwise (· < ·)) :
    ∀ d0 ∈ db.head?, ∀ z ∈ db.getLast?, d0.1 ≤ k → k < z.1 → (dbSeg db k).isSome := by
  induction db with
  | nil => intro d0 hd0; simp at hd0
  | cons d rest ih =>
    intro d0 hd0 z hz h1 h2
    injection hd0 with hd0
    subst hd0
    cases rest with
    | nil =>
      simp only [List.getLast?_singleton, Option.mem_def, Option.some.injEq] at hz
      subst hz
      omega
    | cons d1 rest' =>
      obtain ⟨a, v⟩ := d
      by_cases hk : k < d1.1
      · rw [dbSeg_cons]
        rw [if_pos ⟨h1, hk⟩]
        simp
      · rw [dbSeg_cons, if_neg (fun hc => hk hc.2)]
        have hs2 : (a :: (d1 :: rest').map Prod.fst).Pairwise (· < ·) := hs
        have hs' : ((d1 :: rest').map Prod.fst).Pairwise (· < ·) :=
          (List.pairwise_cons.mp hs2).2
        refine ih hs' d1 rfl z ?_ (by omega) h2
        have hcc : ((a, v) :: d1 :: rest').getLast? = (d1 :: rest').getLast? :=
          List.getLast?_cons_cons
        rw [← hcc]
        exact hz

theorem mem_of_getLast?_eq {A : Type} (l : List A) (z : A) (h : l.getLast? = some z) :
    z ∈ l := by
  obtain ⟨hne, hzz⟩ := List.mem_getLast?_eq_getLast (l := l)
    (by rw [Option.mem_def]; exact h)
  rw [hzz]
  exact List.getLast_mem hne

theorem ucbrStep0_inv (m : KRMap Bool) (k0 E : Nat) (hinv : krmInv m E) (hk : k0 ≤ E) :
    krmInv (ucbrStep0 m k0).1 E := by
  unfold ucbrStep0
  by_cases h : 0 < k0
  · rw [if_pos h]
    exact handle_inv m 0 k0 E false hinv h hk
  · rw [if_neg h]
    exact hinv

theorem ucbrStep0_lookup (m : KRMap Bool) (k0 E k : Nat) (hinv : krmInv m E) :
    krmLookup (ucbrStep0 m k0).1 k = if k < k0 then some false else krmLookup m k := by
  unfold ucbrStep0
  by_cases h : 0 < k0
  · rw [if_pos h, handle_lookup m 0 k0 E false k hinv h]
    by_cases hk : k < k0
    · rw [if_pos ⟨Nat.zero_le k, hk⟩, if_pos hk]
    · rw [if_neg (fun hc => hk hc.2), if_neg hk]
  · rw [if_neg h, if_neg (by omega)]

theorem ucbrStep0_adds (m : KRMap Bool) (k0 : Nat) : (ucbrStep0 m k0).2.1 = [] := by
  unfold ucbrStep0
  by_cases h : 0 < k0
  · rw [if_pos h]
    rfl
  · rw [if_neg h]

theorem ucbrStep0_removes (m : KRMap Bool) (k0 E k : Nat) (hinv : krmInv m E)
    (hk0E : k0 ≤ E) :
    coveredBy (ucbrStep0 m k0).2.2 k = true ↔ (k < k0 ∧ krmLookup m k = some true) := by
  unfold ucbrStep0
  by_cases h : 0 < k0
  · rw [if_pos h, handle_removes_iff m 0 k0 E false k hinv hk0E]
    constructor
    · rintro ⟨-, -, h2, h3⟩
      exact ⟨h2, h3⟩
    · rintro ⟨h2, h3⟩
      exact ⟨rfl, Nat.zero_le k, h2, h3⟩
  · rw [if_neg h]
    have hb : coveredBy ((m, ([] : List (Nat × Nat)), ([] : List (Nat × Nat))).2.2) k
        = false := rfl
    rw [hb]
    constructor
    · intro hc
      exact absurd hc (by simp)
    · rintro ⟨hc, -⟩
      exact absurd hc (by omega)

theorem ucbrStep2_inv (m : KRMap Bool) (nEnd lastKey : Nat) (hinv : krmInv m nEnd) :
    krmInv (ucbrStep2 m nEnd lastKey).1 nEnd := by
  unfold ucbrStep2
  by_cases h : lastKey < nEnd
  · rw [if_pos h]
    exact handle_inv m lastKey nEnd nEnd false hinv h (le_refl _)
  · rw [if_neg h]
    exact hinv

theorem ucbrStep2_lookup (m : KRMap Bool) (nEnd lastKey k : Nat) (hinv : krmInv m nEnd) :
    krmLookup (ucbrStep2 m nEnd lastKey).1 k
      = if lastKey ≤ k ∧ k < nEnd then some false else krmLookup m k := by
  unfold ucbrStep2
  by_cases h : lastKey < nEnd
  · rw [if_pos h]
    exact handle_lookup m lastKey nEnd nEnd false k hinv h
  · rw [if_neg h, if_neg (by omega)]

theorem ucbrStep2_adds (m : KRMap Bool) (nEnd lastKey : Nat) :
    (ucbrStep2 m nEnd lastKey).2.1 = [] := by
  unfold ucbrStep2
  by_cases h : lastKey < nEnd
  · rw [if_pos h]
    rfl
  · rw [if_neg h]

theorem ucbrStep2_removes (m : KRMap Bool) (nEnd lastKey k : Nat) (hinv : krmInv m nEnd) :
    coveredBy (ucbrStep2 m nEnd lastKey).2.2 k = true ↔
      (lastKey ≤ k ∧ k < nEnd ∧ krmLookup m k = some true) := by
  unfold ucbrStep2
  by_cases h : lastKey < nEnd
  · rw [if_pos h, handle_removes_iff m lastKey nEnd nEnd false k hinv (le_refl _)]
    constructor
    · rintro ⟨-, h1, h2, h3⟩
      exact ⟨h1, h2, h3⟩
    · rintro ⟨h1, h2, h3⟩
      exact ⟨rfl, h1, h2, h3⟩
  · rw [if_neg h]
    have hb : coveredBy ((m, ([] : List (Nat × Nat)), ([] : List (Nat × Nat))).2.2) k
        = false := rfl
    rw [hb]
    constructor
    · intro hc
      exact absurd hc (by simp)
    · rintro ⟨h1, h2, -⟩
      exact absurd h2 (by omega)

theorem dbActive_true_iff (db : List (Nat × Bool)) (k : Nat) :
    dbActive db k = true ↔ dbSeg db k = some true := by
  unfold dbActive
  cases h : dbSeg db k <;> simp

theorem dbActive_false_iff (db : List (Nat × Bool)) (k : Nat) :
    dbActive db k = false ↔ (dbSeg db k = none ∨ dbSeg db k = some false) := by
  unfold dbActive
  cases h : dbSeg db k <;> simp

theorem updateClientBlobRanges_spec_cons (m : KRMap Bool) (nEnd : Nat)
    (d0 : Nat × Bool) (restDb : List (Nat × Bool))
    (hinv : krmInv m nEnd) (hn : 0 < nEnd)
    (hs : ((d0 :: restDb).map Prod.fst).Pairwise (· < ·))
    (hle : ∀ p ∈ d0 :: restDb, p.1 ≤ nEnd) :
    krmInv (updateClientBlobRanges m nEnd (d0 :: restDb)).1 nEnd ∧
    (∀ k, k < nEnd → krmLookup (updateClientBlobRanges m nEnd (d0 :: restDb)).1 k
        = some (dbActive (d0 :: restDb) k)) ∧
    (∀ k, coveredBy (updateClientBlobRanges m nEnd (d0 :: restDb)).2.1 k = true ↔
        (dbActive (d0 :: restDb) k = true ∧ krmLookup m k = some false)) ∧
    (∀ k, coveredBy (updateClientBlobRanges m nEnd (d0 :: restDb)).2.2 k = true ↔
        (dbActive (d0 :: restDb) k = false ∧ k < nEnd ∧ krmLookup m k = some true)) := by
  obtain ⟨k0, v0⟩ := d0
  have hk0n : k0 ≤ nEnd := hle (k0, v0) (by simp)
  have hpairs : ((k0, v0) :: restDb).Pairwise (fun p q : Nat × Bool => p.1 < q.1) :=
    List.pairwise_map.mp hs
  obtain ⟨zl, hzl, hk0zl0⟩ := getLast_key_max ((k0, v0) :: restDb) hpairs (k0, v0) (by simp)
  have hk0zl : k0 ≤ zl.1 := hk0zl0
  have hzmem : zl ∈ (k0, v0) :: restDb := mem_of_getLast?_eq _ _ hzl
  have hzn : zl.1 ≤ nEnd := hle zl hzmem
  have hglast : (((k0, v0) :: restDb).getLast (by simp)) = zl := by
    have hh := List.getLast?_eq_getLast_of_ne_nil (l := (k0, v0) :: restDb) (by simp)
    rw [hzl] at hh
    injection hh with hh
    exact hh.symm
  have hinv0 : krmInv (ucbrStep0 m k0).1 nEnd := ucbrStep0_inv m k0 nEnd hinv hk0n
  obtain ⟨inv1, lk1, ad1, rm1, st1⟩ :=
    updateLoopPairs_spec nEnd ((k0, v0) :: restDb) (ucbrStep0 m k0).1 hinv0 hs hle
  have hinv2 : krmInv (ucbrStep2 (updateLoopPairs nEnd (ucbrStep0 m k0).1
      (((k0, v0) :: restDb).zip ((k0, v0) :: restDb).tail)).1 nEnd zl.1).1 nEnd :=
    ucbrStep2_inv _ nEnd zl.1 inv1
  have hu1 : (updateClientBlobRanges m nEnd ((k0, v0) :: restDb)).1
      = krmCoalesce (ucbrStep2 (updateLoopPairs nEnd (ucbrStep0 m k0).1
          (((k0, v0) :: restDb).zip ((k0, v0) :: restDb).tail)).1 nEnd zl.1).1 := by
    show krmCoalesce (ucbrStep2 (updateLoopPairs nEnd (ucbrStep0 m k0).1
        (((k0, v0) :: restDb).zip ((k0, v0) :: restDb).tail)).1 nEnd
        (((k0, v0) :: restDb).getLast (by simp)).1).1 = _
    rw [hglast]
  have hu2 : (updateClientBlobRanges m nEnd ((k0, v0) :: restDb)).2.1
      = (ucbrStep0 m k0).2.1
        ++ (updateLoopPairs nEnd (ucbrStep0 m k0).1
             (((k0, v0) :: restDb).zip ((k0, v0) :: restDb).tail)).2.1
        ++ (ucbrStep2 (updateLoopPairs nEnd (ucbrStep0 m k0).1
             (((k0, v0) :: restDb).zip ((k0, v0) :: restDb).tail)).1 nEnd zl.1).2.1 := by
    show (ucbrStep0 m k0).2.1
        ++ (updateLoopPairs nEnd (ucbrStep0 m k0).1
             (((k0, v0) :: restDb).zip ((k0, v0) :: restDb).tail)).2.1
        ++ (ucbrStep2 (updateLoopPairs nEnd (ucbrStep0 m k0).1
             (((k0, v0) :: restDb).zip ((k0, v0) :: restDb).tail)).1 nEnd
             (((k0, v0) :: restDb).getLast (by simp)).1).2.1 = _
    rw [hglast]
  have hu3 : (updateClientBlobRanges m nEnd ((k0, v0) :: restDb)).2.2
      = (ucbrStep0 m k0).2.2
        ++ (updateLoopPairs nEnd (ucbrStep0 m k0).1
             (((k0, v0) :: restDb).zip ((k0, v0) :: restDb).tail)).2.2
        ++ (ucbrStep2 (updateLoopPairs nEnd (ucbrStep0 m k0).1
             (((k0, v0) :: restDb).zip ((k0, v0) :: restDb).tail)).1 nEnd zl.1).2.2 := by
    show (ucbrStep0 m k0).2.2
        ++ (updateLoopPairs nEnd (ucbrStep0 m k0).1
             (((k0, v0) :: restDb).zip ((k0, v0) :: restDb).tail)).2.2
        ++ (ucbrStep2 (updateLoopPairs nEnd (ucbrStep0 m k0).1
             (((k0, v0) :: restDb).zip ((k0, v0) :: restDb).tail)).1 nEnd
             (((k0, v0) :: restDb).getLast (by simp)).1).2.2 = _
    rw [hglast]
  refine ⟨?_, ?_, ?_, ?_⟩
  · rw [hu1]
    exact krmInv_krmCoalesce _ _ hinv2
  · -- state
    intro k hk
    rw [hu1, krmLookup_krmCoalesce _ _ hinv2.1, ucbrStep2_lookup _ nEnd zl.1 k inv1]
    by_cases hzk : zl.1 ≤ k
    · rw [if_pos ⟨hzk, hk⟩]
      have hseg : dbSeg ((k0, v0) :: restDb) k = none :=
        dbSeg_none_of_ge_last _ k zl hs hzl hzk
      unfold dbActive
      rw [hseg]
      rfl
    · rw [if_neg (fun hc => hzk hc.1)]
      rw [lk1 k]
      cases hseg : dbSeg ((k0, v0) :: restDb) k with
      | some u =>
        unfold dbActive
        rw [hseg]
        rfl
      | none =>
        have hkk0 : k < k0 := by
          by_contra hcon
          have hcov := dbSeg_covers ((k0, v0) :: restDb) k hs (k0, v0) rfl zl hzl
            (by omega) (by omega)
          rw [hseg] at hcov
          simp at hcov
        simp only [Option.elim]
        rw [ucbrStep0_lookup m k0 nEnd k hinv, if_pos hkk0]
        unfold dbActive
        rw [hseg]
        rfl
  · -- adds
    intro k
    rw [hu2, ucbrStep0_adds, ucbrStep2_adds, coveredBy_append, coveredBy_append]
    have hnil : coveredBy [] k = false := rfl
    rw [hnil]
    simp only [Bool.false_or, Bool.or_false]
    rw [ad1 k]
    constructor
    · rintro ⟨hseg, hl⟩
      have hk0 : k0 ≤ k := dbSeg_some_head _ k true hs hseg (k0, v0) rfl
      rw [ucbrStep0_lookup m k0 nEnd k hinv, if_neg (by omega)] at hl
      exact ⟨(dbActive_true_iff _ k).mpr hseg, hl⟩
    · rintro ⟨hact, hl⟩
      have hseg := (dbActive_true_iff _ k).mp hact
      have hk0 : k0 ≤ k := dbSeg_some_head _ k true hs hseg (k0, v0) rfl
      refine ⟨hseg, ?_⟩
      rw [ucbrStep0_lookup m k0 nEnd k hinv, if_neg (by omega)]
      exact hl
  · -- removes
    intro k
    rw [hu3, coveredBy_append, coveredBy_append]
    rw [Bool.or_eq_true, Bool.or_eq_true]
    rw [ucbrStep0_removes m k0 nEnd k hinv hk0n, rm1 k,
      ucbrStep2_removes _ nEnd zl.1 k inv1]
    constructor
    · rintro ((h0 | h1) | h2)
      · obtain ⟨hkk0, hl⟩ := h0
        have hseg : dbSeg ((k0, v0) :: restDb) k = none := by
          refine dbSeg_none_of_lt _ k hs (fun d hd => ?_)
          injection hd with hd
          rw [← hd]
          exact hkk0
        exact ⟨(dbActive_false_iff _ k).mpr (Or.inl hseg), by omega, hl⟩
      · obtain ⟨hseg, hl⟩ := h1
        have hk0 : k0 ≤ k := dbSeg_some_head _ k false hs hseg (k0, v0) rfl
        obtain ⟨z2, hz2, hkz2⟩ := dbSeg_some_lt_last _ k false hs hseg
        rw [hzl] at hz2
        injection hz2 with hz2
        subst hz2
        rw [ucbrStep0_lookup m k0 nEnd k hinv, if_neg (by omega)] at hl
        exact ⟨(dbActive_false_iff _ k).mpr (Or.inr hseg), by omega, hl⟩
      · obtain ⟨hzk, hkn, hl⟩ := h2
        have hseg : dbSeg ((k0, v0) :: restDb) k = none :=
          dbSeg_none_of_ge_last _ k zl hs hzl hzk
        rw [lk1 k, hseg] at hl
        simp only [Option.elim] at hl
        rw [ucbrStep0_lookup m k0 nEnd k hinv, if_neg (by omega)] at hl
        exact ⟨(dbActive_false_iff _ k).mpr (Or.inl hseg), hkn, hl⟩
    · rintro ⟨hact, hkn, hl⟩
      rcases (dbActive_false_iff _ k).mp hact with hseg | hseg
      · by_cases hkk0 : k < k0
        · exact Or.inl (Or.inl ⟨hkk0, hl⟩)
        · have hzk : zl.1 ≤ k := by
            by_contra hcon
            have hcov := dbSeg_covers ((k0, v0) :: restDb) k hs (k0, v0) rfl zl hzl
              (by omega) (by omega)
            rw [hseg] at hcov
            simp at hcov
          refine Or.inr ⟨hzk, hkn, ?_⟩
          rw [lk1 k, hseg]
          simp only [Option.elim]
          rw [ucbrStep0_lookup m k0 nEnd k hinv, if_neg (by omega)]
          exact hl
      · have hk0 : k0 ≤ k := dbSeg_some_head _ k false hs hseg (k0, v0) rfl
        refine Or.inl (Or.inr ⟨hseg, ?_⟩)
        rw [ucbrStep0_lookup m k0 nEnd k hinv, if_neg (by omega)]
        exact hl

/-- Per-key specification of `updateClientBlobRanges`: the new
`knownBlobRanges` agrees with the DB state on every normal key, a key is
covered by an emitted add range exactly when the DB now marks it active but
the map marked it inactive, and by an emitted remove range exactly when the
DB marks it inactive but the map marked it active. -/
theorem updateClientBlobRanges_spec (m : KRMap Bool) (nEnd : Nat) (db : List (Nat × Bool))
    (hinv : krmInv m nEnd) (hn : 0 < nEnd)
    (hs : (db.map Prod.fst).Pairwise (· < ·))
    (hle : ∀ p ∈ db, p.1 ≤ nEnd) :
    krmInv (updateClientBlobRanges m nEnd db).1 nEnd ∧
    (∀ k, k < nEnd → krmLookup (updateClientBlobRanges m nEnd db).1 k
        = some (dbActive db k)) ∧
    (∀ k, coveredBy (updateClientBlobRanges m nEnd db).2.1 k = true ↔
        (dbActive db k = true ∧ krmLookup m k = some false)) ∧
    (∀ k, coveredBy (updateClientBlobRanges m nEnd db).2.2 k = true ↔
        (dbActive db k = false ∧ k < nEnd ∧ krmLookup m k = some true)) := by
  cases db with
  | nil =>
    have hinv1 : krmInv (handleClientBlobRange m 0 nEnd false).1 nEnd :=
      handle_inv m 0 nEnd nEnd false hinv hn (le_refl _)
    have hco : ∀ k, krmLookup (krmCoalesce (handleClientBlobRange m 0 nEnd false).1) k
        = krmLookup (handleClientBlobRange m 0 nEnd false).1 k :=
      fun k => krmLookup_krmCoalesce _ k hinv1.1
    refine ⟨?_, ?_, ?_, ?_⟩
    · exact krmInv_krmCoalesce _ _ hinv1
    · intro k hk
      show krmLookup (krmCoalesce (handleClientBlobRange m 0 nEnd false).1) k = _
      rw [hco k, handle_lookup m 0 nEnd nEnd false k hinv hn,
        if_pos ⟨Nat.zero_le k, hk⟩]
      rfl
    · intro k
      show coveredBy (handleClientBlobRange m 0 nEnd false).2.1 k = true ↔ _
      rw [handle_adds_iff m 0 nEnd nEnd false k hinv (le_refl _)]
      simp [dbActive, dbSeg]
    · intro k
      show coveredBy (handleClientBlobRange m 0 nEnd false).2.2 k = true ↔ _
      rw [handle_removes_iff m 0 nEnd nEnd false k hinv (le_refl _)]
      simp only [dbActive, dbSeg, List.tail_nil, List.zip_nil_left, List.find?_nil,
        Option.map_none', Option.getD_none]
      constructor
      · rintro ⟨-, -, h2, h3⟩
        exact ⟨by trivial, h2, h3⟩
      · rintro ⟨-, h2, h3⟩
        exact ⟨by trivial, Nat.zero_le k, h2, h3⟩
  | cons d0 restDb => exact updateClientBlobRanges_spec_cons m nEnd d0 restDb hinv hn hs hle

/-! ## Claim theorems -/

/-- **C1 (counterexample)**: on a first attempt with `bm.epoch = 2` and a
persisted lock `(owner_epoch, owner_seqno) = (1, 100)`, the transaction
commits a lock with `new_seqno = 5 < 100 = owner_seqno`: the claim that the
first attempt always writes `new_seqno > owner_seqno` is false (the
assertion at part_001:1136 only requires it when the epochs are equal). -/
theorem maybeSplitRange_lock_counterexample :
    splitTxnAttempt 2 (0, 10) 7 1 5 [0, 4, 10] [11, 12] 3 5 false (1, 100, 9)
      = SplitTxnOutcome.committed
          (splitTxnWriteSet 2 (0, 10) 7 1 5 [0, 4, 10] [11, 12] 3 5 9) ∧
    (splitTxnWriteSet 2 (0, 10) 7 1 5 [0, 4, 10] [11, 12] 3 5 9).lock = (2, 5, 9) ∧
    ¬ ((5 : Int) > 100) := by
  refine ⟨by decide, rfl, by decide⟩

/-- **C1 (amended)**: the transaction abandons the split without writing when
`owner_epoch > bm.epoch`; otherwise any committed attempt writes the lock
`(bm.epoch, new_seqno, old_granule_id)` whose `(epoch, seqno)` pair
lexicographically exceeds `(owner_epoch, owner_seqno)` (strictly on the
first attempt, non-strictly on a retry of an unknown-result commit); in
particular `new_seqno > owner_seqno` whenever `owner_epoch = bm.epoch` on a
first attempt, and the written epoch is never less than the BM's current
epoch. -/
theorem maybeSplitRange_lock_write (bmEpoch : Int) (gr : Nat × Nat) (gid : Nat)
    (sv lv : Int) (nr gids : List Nat) (ss nls : Int) (isRetry : Bool)
    (prevLock : Int × Int × Nat) :
    (prevLock.1 > bmEpoch →
      splitTxnAttempt bmEpoch gr gid sv lv nr gids ss nls isRetry prevLock
        = SplitTxnOutcome.replaced) ∧
    (∀ w, splitTxnAttempt bmEpoch gr gid sv lv nr gids ss nls isRetry prevLock
        = SplitTxnOutcome.committed w →
      w.lock = (bmEpoch, nls, prevLock.2.2) ∧
      (isRetry = false → lockPairLt (prevLock.1, prevLock.2.1) (bmEpoch, nls)) ∧
      (isRetry = true → lockPairLe (prevLock.1, prevLock.2.1) (bmEpoch, nls)) ∧
      (prevLock.1 = bmEpoch → isRetry = false → prevLock.2.1 < nls) ∧
      bmEpoch ≤ w.lock.1) := by
  constructor
  · intro h
    unfold splitTxnAttempt
    rw [if_pos h]
  · intro w hw
    unfold splitTxnAttempt at hw
    by_cases hA : prevLock.1 > bmEpoch
    · rw [if_pos hA] at hw
      exact absurd hw (by simp)
    · rw [if_neg hA] at hw
      cases hR : isRetry with
      | true =>
        rw [hR] at hw
        rw [if_pos rfl] at hw
        by_cases hB : bmEpoch > prevLock.1
            ∨ (bmEpoch = prevLock.1 ∧ nls ≥ prevLock.2.1)
        · rw [if_pos hB] at hw
          injection hw with hw
          subst hw
          refine ⟨rfl, ?_, ?_, ?_, le_refl _⟩
          · intro hc
            exact absurd hc (by simp)
          · intro _
            unfold lockPairLe
            show prevLock.1 < bmEpoch ∨ (prevLock.1 = bmEpoch ∧ prevLock.2.1 ≤ nls)
            rcases hB with hB | ⟨hB1, hB2⟩
            · omega
            · omega
          · intro he hc
            exact absurd hc (by simp)
        · rw [if_neg hB] at hw
          exact absurd hw (by simp)
      | false =>
        rw [hR] at hw
        rw [if_neg (by simp)] at hw
        by_cases hB : bmEpoch > prevLock.1
            ∨ (bmEpoch = prevLock.1 ∧ nls > prevLock.2.1)
        · rw [if_pos hB] at hw
          injection hw with hw
          subst hw
          refine ⟨rfl, ?_, ?_, ?_, le_refl _⟩
          · intro _
            unfold lockPairLt
            show prevLock.1 < bmEpoch ∨ (prevLock.1 = bmEpoch ∧ prevLock.2.1 < nls)
            rcases hB with hB | ⟨hB1, hB2⟩
            · omega
            · omega
          · intro hc
            exact absurd hc (by simp)
          · intro he _
            rcases hB with hB | ⟨hB1, hB2⟩
            · omega
            · omega
        · rw [if_neg hB] at hw
          exact absurd hw (by simp)

/-- **C1 (witness)**. -/
theorem maybeSplitRange_lock_write_witness :
    splitTxnAttempt 2 (0, 10) 7 1 5 [0, 4, 10] [11, 12] 3 5 true (3, 9, 8)
      = SplitTxnOutcome.replaced ∧
    (splitTxnWriteSet 2 (0, 10) 7 1 5 [0, 4, 10] [11, 12] 3 5 9).lock = (2, 5, 9) ∧
    lockPairLt (1, 100) (2, 5) := by
  have hrep := (maybeSplitRange_lock_write 2 (0, 10) 7 1 5 [0, 4, 10] [11, 12] 3 5
    true (3, 9, 8)).1 (by decide)
  have hcom := (maybeSplitRange_lock_write 2 (0, 10) 7 1 5 [0, 4, 10] [11, 12] 3 5
    false (1, 100, 9)).2
    (splitTxnWriteSet 2 (0, 10) 7 1 5 [0, 4, 10] [11, 12] 3 5 9) (by decide)
  exact ⟨hrep, hcom.1, hcom.2.1 rfl⟩

theorem drawSeqnos_getD (c : Int) (trace : List SeqnoDraw) (i : Nat)
    (h : i < trace.length) :
    ((drawSeqnos c trace).getD i (SeqnoDraw.splitSeqnoDraw, 0)).2 = c + i := by
  induction trace generalizing c i with
  | nil => simp at h
  | cons d rest ih =>
    cases i with
    | zero => simp [drawSeqnos]
    | succ n =>
      simp only [drawSeqnos, List.getD_cons_succ]
      rw [ih (c + 1) n (by simpa using h)]
      omega

/-- **C3**: every seqno draw (queue events consumed in FIFO order by
`rangeAssigner`, and the split/lock draws of `maybeSplitRange`) takes the
current value of the single counter and increments it, so a draw processed
later always carries a strictly greater seqno; with the instance's fixed
epoch, the `(epoch, seqno)` pairs are strictly increasing
lexicographically. -/
theorem rangeAssigner_seqnos_monotone (seqNo bmEpoch : Int) (trace : List SeqnoDraw)
    (i j : Nat) (hij : i < j) (hj : j < trace.length) :
    ((drawSeqnos seqNo trace).getD i (SeqnoDraw.splitSeqnoDraw, 0)).2
      < ((drawSeqnos seqNo trace).getD j (SeqnoDraw.splitSeqnoDraw, 0)).2 ∧
    lockPairLt
      (bmEpoch, ((drawSeqnos seqNo trace).getD i (SeqnoDraw.splitSeqnoDraw, 0)).2)
      (bmEpoch, ((drawSeqnos seqNo trace).getD j (SeqnoDraw.splitSeqnoDraw, 0)).2) := by
  rw [drawSeqnos_getD seqNo trace i (by omega), drawSeqnos_getD seqNo trace j hj]
  refine ⟨by omega, ?_⟩
  unfold lockPairLt
  exact Or.inr ⟨rfl, by omega⟩

/-- **C3 (witness)**. -/
theorem rangeAssigner_seqnos_monotone_witness :
    ((drawSeqnos 4 [SeqnoDraw.splitSeqnoDraw, SeqnoDraw.splitLockDraw,
        SeqnoDraw.splitSeqnoDraw]).getD 0 (SeqnoDraw.splitSeqnoDraw, 0)).2
      < ((drawSeqnos 4 [SeqnoDraw.splitSeqnoDraw, SeqnoDraw.splitLockDraw,
        SeqnoDraw.splitSeqnoDraw]).getD 2 (SeqnoDraw.splitSeqnoDraw, 0)).2 :=
  (rangeAssigner_seqnos_monotone 4 7 [SeqnoDraw.splitSeqnoDraw,
    SeqnoDraw.splitLockDraw, SeqnoDraw.splitSeqnoDraw] 0 2 (by decide) (by decide)).1

theorem maybeSplitRangeRun_writes (bmEpoch : Int) (gr : Nat × Nat) (gid : Nat)
    (sv lv : Int) (nr gids : List Nat) (ss nls : Int)
    (attempts : List ((Int × Int × Nat) × TxnFate)) (isRetry : Bool) :
    ∀ w ∈ maybeSplitRangeRun bmEpoch gr gid sv lv nr gids ss nls attempts isRetry,
      w.splitRecords = gids.map (fun g => (gid, g)) ∧
      w.boundaryKeys = (nr.take (nr.length - 1)) ++ [nr.getLastD 0] ∧
      w.historyEntries = (List.range (nr.length - 1)).map (fun i =>
        ((nr.getD i 0, nr.getD (i + 1) 0), lv, gids.getD i 0, (gr, sv))) := by
  induction attempts generalizing isRetry with
  | nil =>
    intro w hw
    simp [maybeSplitRangeRun] at hw
  | cons att rest ih =>
    intro w hw
    obtain ⟨lock, fate⟩ := att
    unfold maybeSplitRangeRun at hw
    cases hout : splitTxnAttempt bmEpoch gr gid sv lv nr gids ss nls isRetry lock with
    | replaced =>
      rw [hout] at hw
      simp at hw
    | assertFailed =>
      rw [hout] at hw
      simp at hw
    | committed w0 =>
      rw [hout] at hw
      have hw0 : w0 = splitTxnWriteSet bmEpoch gr gid sv lv nr gids ss nls lock.2.2 := by
        unfold splitTxnAttempt at hout
        split_ifs at hout
        all_goals injection hout with h
        all_goals exact h.symm
      cases fate with
      | ok =>
        simp only [List.mem_singleton] at hw
        subst hw
        rw [hw0]
        exact ⟨rfl, rfl, rfl⟩
      | retryUnknownCommit =>
        rcases List.mem_cons.mp hw with hw | hw
        · subst hw
          rw [hw0]
          exact ⟨rfl, rfl, rfl⟩
        · exact ih true w hw
      | retryNoCommit =>
        exact ih true w hw

/-- **C4**: a retried `maybeSplitRange` persistence transaction applies
exactly the same child granule ids, boundary keys and history entries as a
transaction that succeeds on the first attempt: the child ids, the split
seqno and the lock seqno are all drawn once before the retry loop
(part_001:1077-1087, 1123-1125), so every applied write-set (including
those of unknown-result commits) agrees on these components. -/
theorem maybeSplitRange_idempotent (bmEpoch : Int) (gr : Nat × Nat) (gid : Nat)
    (sv lv : Int) (nr gids : List Nat) (ss nls : Int)
    (attempts : List ((Int × Int × Nat) × TxnFate)) (lock1 : Int × Int × Nat)
    (w w1 : SplitTxnWrites)
    (hw : w ∈ maybeSplitRangeRun bmEpoch gr gid sv lv nr gids ss nls attempts false)
    (hw1 : w1 ∈ maybeSplitRangeRun bmEpoch gr gid sv lv nr gids ss nls
      [(lock1, TxnFate.ok)] false) :
    w.splitRecords = w1.splitRecords ∧ w.boundaryKeys = w1.boundaryKeys ∧
    w.historyEntries = w1.historyEntries := by
  obtain ⟨h1, h2, h3⟩ :=
    maybeSplitRangeRun_writes bmEpoch gr gid sv lv nr gids ss nls attempts false w hw
  obtain ⟨g1, g2, g3⟩ :=
    maybeSplitRangeRun_writes bmEpoch gr gid sv lv nr gids ss nls
      [(lock1, TxnFate.ok)] false w1 hw1
  exact ⟨h1.trans g1.symm, h2.trans g2.symm, h3.trans g3.symm⟩

/-- **C4 (witness)**: a run that hits an unknown-result commit and then
succeeds applies the same split metadata as the single-shot run. -/
theorem maybeSplitRange_idempotent_witness :
    (splitTxnWriteSet 2 (0, 10) 7 1 5 [0, 4, 10] [11, 12] 3 5 9
      ∈ maybeSplitRangeRun 2 (0, 10) 7 1 5 [0, 4, 10] [11, 12] 3 5
        [((1, 1, 9), TxnFate.retryUnknownCommit), ((2, 5, 9), TxnFate.ok)] false)
    ∧ (splitTxnWriteSet 2 (0, 10) 7 1 5 [0, 4, 10] [11, 12] 3 5 9
      ∈ maybeSplitRangeRun 2 (0, 10) 7 1 5 [0, 4, 10] [11, 12] 3 5
        [((1, 1, 9), TxnFate.ok)] false)
    ∧ ((splitTxnWriteSet 2 (0, 10) 7 1 5 [0, 4, 10] [11, 12] 3 5 9).splitRecords
        = (splitTxnWriteSet 2 (0, 10) 7 1 5 [0, 4, 10] [11, 12] 3 5 9).splitRecords
      ∧ (splitTxnWriteSet 2 (0, 10) 7 1 5 [0, 4, 10] [11, 12] 3 5 9).boundaryKeys
        = (splitTxnWriteSet 2 (0, 10) 7 1 5 [0, 4, 10] [11, 12] 3 5 9).boundaryKeys
      ∧ (splitTxnWriteSet 2 (0, 10) 7 1 5 [0, 4, 10] [11, 12] 3 5 9).historyEntries
        = (splitTxnWriteSet 2 (0, 10) 7 1 5 [0, 4, 10] [11, 12] 3 5 9).historyEntries) :=
  ⟨by decide, by decide,
    maybeSplitRange_idempotent 2 (0, 10) 7 1 5 [0, 4, 10] [11, 12] 3 5
      [((1, 1, 9), TxnFate.retryUnknownCommit), ((2, 5, 9), TxnFate.ok)] (1, 1, 9)
      (splitTxnWriteSet 2 (0, 10) 7 1 5 [0, 4, 10] [11, 12] 3 5 9)
      (splitTxnWriteSet 2 (0, 10) 7 1 5 [0, 4, 10] [11, 12] 3 5 9)
      (by decide) (by decide)⟩

/-- **C9**: the claim describes the intended behaviour; the code has a bug.
When the persisted `(version, force)` still equals the processed pair, the
clear step clears `blobGranulePruneKeys.begin ++ (blobGranulePruneKeys.begin
++ startKey)` — the prune-keys prefix is applied twice (part_001:2703),
while the intent was read at `blobGranulePruneKeys.begin ++ startKey`
(part_001:2694-2695) — so the durable prune-intent key is never cleared;
when the values differ, nothing is cleared. -/
theorem pruneRange_clear_wrong_key (pkb sk : ByteKey) (vf : Int × Bool)
    (hne : pkb ≠ []) :
    (pruneRangeClearStep pkb sk vf vf).2 = [pkb ++ (pkb ++ sk)] ∧
    (pruneRangeClearStep pkb sk vf vf).1 ∉ (pruneRangeClearStep pkb sk vf vf).2 ∧
    (∀ vf2 : Int × Bool, vf2 ≠ vf → (pruneRangeClearStep pkb sk vf2 vf).2 = []) := by
  refine ⟨?_, ?_, ?_⟩
  · unfold pruneRangeClearStep
    rw [if_pos rfl]
  · intro hmem
    unfold pruneRangeClearStep at hmem
    rw [if_pos rfl] at hmem
    simp only [List.mem_singleton] at hmem
    have hlen := congrArg List.length hmem
    simp only [List.length_append] at hlen
    have : pkb.length = 0 := by omega
    exact hne (List.length_eq_zero.mp this)
  · intro vf2 hvf
    unfold pruneRangeClearStep
    rw [if_neg hvf]

/-- **C9 (witness)**. -/
theorem pruneRange_clear_wrong_key_witness :
    ([255, 2] : ByteKey) ≠ [] ∧
    (pruneRangeClearStep [255, 2] [65] (1, false) (1, false)).2
      = [[255, 2, 255, 2, 65]] ∧
    (pruneRangeClearStep [255, 2] [65] (1, false) (1, false)).1
      ∉ (pruneRangeClearStep [255, 2] [65] (1, false) (1, false)).2 := by
  have h := pruneRange_clear_wrong_key [255, 2] [65] (1, false) (by decide)
  exact ⟨by decide, h.1, h.2.1⟩

/-- **C10**: a successful `splitRange` returns at least two boundary keys,
the first equal to `range.begin` and the last equal to `range.end`; when
the estimated size does not exceed the snapshot target and `writeHot` is
false it returns exactly `[range.begin, range.end]`. -/
theorem splitRange_spec (rBegin rEnd : Nat) (est tgt : Int) (writeHot : Bool)
    (streamKeys keys : List Nat)
    (h : splitRange rBegin rEnd est tgt writeHot streamKeys = some keys) :
    2 ≤ keys.length ∧ keys.head? = some rBegin ∧ keys.getLast? = some rEnd ∧
    (est ≤ tgt → writeHot = false → keys = [rBegin, rEnd]) := by
  unfold splitRange at h
  by_cases h1 : est > tgt ∨ writeHot = true
  · rw [if_pos h1] at h
    by_cases h2 : 2 ≤ streamKeys.length ∧ streamKeys.head? = some rBegin
        ∧ streamKeys.getLast? = some rEnd
    · rw [if_pos h2] at h
      injection h with h
      subst h
      refine ⟨h2.1, h2.2.1, h2.2.2, fun hle hhot => ?_⟩
      rcases h1 with h1 | h1
      · omega
      · rw [hhot] at h1
        exact Bool.noConfusion h1
    · rw [if_neg h2] at h
      exact Option.noConfusion h
  · rw [if_neg h1] at h
    injection h with h
    subst h
    exact ⟨by simp, rfl, rfl, fun _ _ => rfl⟩

/-- **C10 (witness)**. -/
theorem splitRange_spec_witness :
    splitRange 0 10 5 3 false [0, 4, 10] = some [0, 4, 10] ∧
    (2 ≤ [0, 4, 10].length ∧ ([0, 4, 10] : List Nat).head? = some 0
      ∧ ([0, 4, 10] : List Nat).getLast? = some 10) := by
  have h := splitRange_spec 0 10 5 3 false [0, 4, 10] [0, 4, 10] (by decide)
  exact ⟨by decide, h.1, h.2.1, h.2.2.1⟩

/-- `downsampleSplit` returns exactly `remaining` boundaries whenever the
index window is wide enough and lies inside the list. -/
theorem downsampleSplit_length (remaining : Nat) :
    ∀ (splits : List Nat) (startIdx endIdx : Nat),
    remaining ≤ endIdx - startIdx → endIdx ≤ splits.length →
    (downsampleSplit splits startIdx endIdx remaining).length = remaining := by
  induction remaining using Nat.strong_induction_on with
  | _ remaining ih =>
    intro splits startIdx endIdx hle hlen
    rw [downsampleSplit]
    split_ifs with h0 h1
    · simp [h0]
    · rw [List.length_take, List.length_drop]
      omega
    · have hA := ih ((remaining - 1) / 2) (by omega) splits startIdx
        ((startIdx + endIdx) / 2) (by omega) (by omega)
      have hB := ih (remaining - (remaining - 1) / 2 - 1) (by omega) splits
        ((startIdx + endIdx) / 2 + 1) endIdx (by omega) (by omega)
      simp only [List.length_append, List.length_cons, hA, hB]
      omega

/-- `consecutivePairs` yields one pair per adjacent boundary pair. -/
theorem consecutivePairs_length (keys : List Nat) :
    (consecutivePairs keys).length = keys.length - 1 := by
  unfold consecutivePairs
  rw [List.length_zip, List.length_tail]
  omega

/-- Filtering the all-Assign image of a range list keeps everything. -/
theorem filter_isAssign_map (l : List (Nat × Nat)) :
    ((l.map (fun r =>
        ({ isAssign := true, keyRange := r, worker := none } : RangeAssignment))).filter
      (fun ra => ra.isAssign)).length = l.length := by
  induction l with
  | nil => rfl
  | cons a t ih =>
    simp [List.filter_cons, ih]

/-- The post-split queue holds one Revoke plus one Assign per child pair. -/
theorem postAssignments_filter_length (wid : Nat) (gr : Nat × Nat) (c : List Nat) :
    ((maybeSplitRangePostAssignments wid gr c).filter (fun ra => ra.isAssign)).length
      = (consecutivePairs c).length := by
  unfold maybeSplitRangePostAssignments
  rw [List.filter_cons, if_neg (by simp)]
  exact filter_isAssign_map (consecutivePairs c)

/-- **C5 (counterexample)**: `monitorClientRanges` (part_001:914-948) applies
no fanout cap on the client-addition path: a splitter result of 13
boundaries (12 chunks) is persisted unchanged and 12 Assigns are enqueued,
although the claim says the sub-range count is capped at 10. -/
theorem monitorClientRanges_no_cap_counterexample :
    (processClientRangeAddition
        [0, 1, 2, 3, 4, 5, 6, 7, 8, 9, 10, 11, 12]).assignsEnqueued.length = 12
    ∧ (processClientRangeAddition
        [0, 1, 2, 3, 4, 5, 6, 7, 8, 9, 10, 11, 12]).persistedMappingRanges.length = 12
    ∧ ¬ (processClientRangeAddition
        [0, 1, 2, 3, 4, 5, 6, 7, 8, 9, 10, 11, 12]).assignsEnqueued.length ≤ 10 := by
  decide

/-- **C5 (amended)**: for every client blob-range addition processed by
`monitorClientRanges` the splitter output is persisted unchanged — every
consecutive boundary pair becomes a granule — and one Assign is enqueued
per sub-range, with NO fanout cap: whenever the splitter returns 12 or more
chunks, more than 10 Assigns are enqueued.  (The 10-way downsampling of
`downsampleSplit` is applied only on the worker-split path of
`maybeSplitRange`, part_001:1042-1062, not on this path.) -/
theorem monitorClientRanges_addition_uncapped (splits : List Nat) :
    (processClientRangeAddition splits).persistedMappingRanges = consecutivePairs splits
    ∧ (processClientRangeAddition splits).assignsEnqueued.length = splits.length - 1
    ∧ (∀ ra, ra ∈ (processClientRangeAddition splits).assignsEnqueued →
        ra.isAssign = true ∧ ra.keyRange ∈ consecutivePairs splits)
    ∧ (12 ≤ splits.length →
        10 < (processClientRangeAddition splits).assignsEnqueued.length) := by
  have hlen : (processClientRangeAddition splits).assignsEnqueued.length
      = splits.length - 1 := by
    show ((consecutivePairs splits).map (fun r =>
        ({ isAssign := true, keyRange := r, worker := none } : RangeAssignment))).length
      = splits.length - 1
    rw [List.length_map, consecutivePairs_length]
  refine ⟨rfl, hlen, ?_, ?_⟩
  · intro ra hra
    have hra2 : ra ∈ (consecutivePairs splits).map (fun r =>
        ({ isAssign := true, keyRange := r, worker := none } : RangeAssignment)) := hra
    rw [List.mem_map] at hra2
    obtain ⟨r, hr1, hr2⟩ := hra2
    rw [← hr2]
    exact ⟨rfl, hr1⟩
  · intro h12
    rw [hlen]
    omega

/-- **C5 (witness)**. -/
theorem monitorClientRanges_addition_uncapped_witness :
    12 ≤ ([0, 1, 2, 3, 4, 5, 6, 7, 8, 9, 10, 11, 12] : List Nat).length
    ∧ 10 < (processClientRangeAddition
        [0, 1, 2, 3, 4, 5, 6, 7, 8, 9, 10, 11, 12]).assignsEnqueued.length :=
  ⟨by decide, (monitorClientRanges_addition_uncapped
      [0, 1, 2, 3, 4, 5, 6, 7, 8, 9, 10, 11, 12]).2.2.2 (by decide)⟩

/-- **C6**: when the splitter returns 13 boundary keys for a worker-reported
split, `maybeSplitRange` downsamples to exactly 11 boundaries keeping the
original first and last key, persists exactly 11 boundary keys in the
split transaction, and enqueues exactly 10 Assigns (one per child). -/
theorem maybeSplitRange_fanout_13 (splits : List Nat) (wid gid pgid : Nat)
    (gr : Nat × Nat) (bmEpoch gsv lv ss nls : Int) (gids : List Nat)
    (h13 : splits.length = 13) :
    (maybeSplitRangeCoalesce splits).length = 11
    ∧ (maybeSplitRangeCoalesce splits).headD 0 = splits.headD 0
    ∧ (maybeSplitRangeCoalesce splits).getLastD 0 = splits.getLastD 0
    ∧ (splitTxnWriteSet bmEpoch gr gid gsv lv (maybeSplitRangeCoalesce splits) gids
        ss nls pgid).boundaryKeys.length = 11
    ∧ ((maybeSplitRangePostAssignments wid gr (maybeSplitRangeCoalesce splits)).filter
        (fun ra => ra.isAssign)).length = 10 := by
  have hds : (downsampleSplit splits 1 (splits.length - 1) 9).length = 9 :=
    downsampleSplit_length 9 splits 1 (splits.length - 1) (by omega) (by omega)
  have hc : (maybeSplitRangeCoalesce splits).length = 11 := by
    show (if splits.length ≥ 12 then
        splits.headD 0 :: (downsampleSplit splits 1 (splits.length - 1) 9
          ++ [splits.getLastD 0])
      else splits).length = 11
    rw [if_pos (show splits.length ≥ 12 by omega)]
    simp only [List.length_cons, List.length_append, List.length_nil, hds]
  have hh : (maybeSplitRangeCoalesce splits).headD 0 = splits.headD 0 := by
    show (if splits.length ≥ 12 then
        splits.headD 0 :: (downsampleSplit splits 1 (splits.length - 1) 9
          ++ [splits.getLastD 0])
      else splits).headD 0 = splits.headD 0
    rw [if_pos (show splits.length ≥ 12 by omega)]
    rfl
  have hl : (maybeSplitRangeCoalesce splits).getLastD 0 = splits.getLastD 0 := by
    show (if splits.length ≥ 12 then
        splits.headD 0 :: (downsampleSplit splits 1 (splits.length - 1) 9
          ++ [splits.getLastD 0])
      else splits).getLastD 0 = splits.getLastD 0
    rw [if_pos (show splits.length ≥ 12 by omega)]
    rw [List.getLastD_eq_getLast?, ← List.cons_append, List.getLast?_concat]
    rfl
  have hb : (splitTxnWriteSet bmEpoch gr gid gsv lv (maybeSplitRangeCoalesce splits)
      gids ss nls pgid).boundaryKeys.length = 11 := by
    show ((maybeSplitRangeCoalesce splits).take
          ((maybeSplitRangeCoalesce splits).length - 1)
        ++ [(maybeSplitRangeCoalesce splits).getLastD 0]).length = 11
    rw [List.length_append, List.length_take, List.length_singleton, hc]
    omega
  have hf : ((maybeSplitRangePostAssignments wid gr
      (maybeSplitRangeCoalesce splits)).filter (fun ra => ra.isAssign)).length = 10 := by
    rw [postAssignments_filter_length, consecutivePairs_length, hc]
  exact ⟨hc, hh, hl, hb, hf⟩

/-- **C6 (witness)**. -/
theorem maybeSplitRange_fanout_13_witness :
    ([0, 1, 2, 3, 4, 5, 6, 7, 8, 9, 10, 11, 12] : List Nat).length = 13
    ∧ (maybeSplitRangeCoalesce [0, 1, 2, 3, 4, 5, 6, 7, 8, 9, 10, 11, 12]).length = 11
    ∧ ((maybeSplitRangePostAssignments 1 (0, 12)
        (maybeSplitRangeCoalesce [0, 1, 2, 3, 4, 5, 6, 7, 8, 9, 10, 11, 12])).filter
      (fun ra => ra.isAssign)).length = 10 :=
  ⟨rfl,
    (maybeSplitRange_fanout_13 [0, 1, 2, 3, 4, 5, 6, 7, 8, 9, 10, 11, 12] 1 2 3 (0, 12)
      4 5 6 7 8 [9] rfl).1,
    (maybeSplitRange_fanout_13 [0, 1, 2, 3, 4, 5, 6, 7, 8, 9, 10, 11, 12] 1 2 3 (0, 12)
      4 5 6 7 8 [9] rfl).2.2.2.2⟩

/-! ### Insert, interval and fold lemmas for `addAssignment` -/

/-- `krmInsert` preserves the invariant even when the inserted range's end
exceeds `E` (the re-inserted `newer` ranges of `addAssignment` may stick out
of the incoming range). -/
theorem krmInv_krmInsert2 {V : Type} (m : KRMap V) (a b E : Nat) (v : V)
    (hinv : krmInv m E) (hab : a < b) : krmInv (krmInsert m a b v) E := by
  obtain ⟨hs, hh, pE, hpE, hE⟩ := hinv
  have hins : krmInsert m a b v =
      m.filter (fun p => p.1 < a)
        ++ (a, v) :: (b, (krmLookup m b).getD v) :: m.filter (fun p => b < p.1) := by
    unfold krmInsert
    rw [if_neg (by omega)]
  refine ⟨?_, ?_, ?_⟩
  · rw [hins, List.pairwise_append]
    refine ⟨List.Pairwise.sublist (List.filter_sublist m) hs, ?_, ?_⟩
    · rw [List.pairwise_cons]
      constructor
      · intro q hq
        rcases List.mem_cons.mp hq with hq | hq
        · subst hq; exact hab
        · have := (List.mem_filter.mp hq).2
          simp only [decide_eq_true_eq] at this
          omega
      · rw [List.pairwise_cons]
        refine ⟨fun q hq => by
          have := (List.mem_filter.mp hq).2
          simp only [decide_eq_true_eq] at this
          omega, List.Pairwise.sublist (List.filter_sublist m) hs⟩
    · intro x hx y hy
      have hxa : x.1 < a := by
        have := (List.mem_filter.mp hx).2
        simpa using this
      simp only [List.mem_cons] at hy
      rcases hy with hy | hy | hy
      · subst hy; omega
      · subst hy; omega
      · have := (List.mem_filter.mp hy).2
        simp only [decide_eq_true_eq] at this
        omega
  · rw [hins]
    cases m with
    | nil => simp at hh
    | cons p rest =>
      obtain ⟨c, w⟩ := p
      simp only [List.head?_cons, Option.map_some'] at hh
      injection hh with hh
      have hc : c = 0 := hh
      subst hc
      by_cases ha : 0 < a
      · simp [List.filter_cons, ha]
      · have ha0 : a = 0 := by omega
        subst ha0
        simp [List.filter_cons]
  · rw [hins]
    by_cases hpb : b < pE.1
    · exact ⟨pE, by
        refine List.mem_append.mpr (Or.inr ?_)
        refine List.mem_cons.mpr (Or.inr ?_)
        refine List.mem_cons.mpr (Or.inr ?_)
        exact List.mem_filter.mpr ⟨hpE, by simpa using hpb⟩, hE⟩
    · exact ⟨(b, (krmLookup m b).getD v), by simp, by omega⟩

/-- Lookup after an insert, outside the inserted range. -/
theorem krmLookup_krmInsert_out {V : Type} (m : KRMap V) (a b k E : Nat) (v : V)
    (hinv : krmInv m E) (hab : a < b) (hk : ¬ (a ≤ k ∧ k < b)) :
    krmLookup (krmInsert m a b v) k = krmLookup m k := by
  obtain ⟨hs, hh, -⟩ := hinv
  obtain ⟨w0, hw0⟩ := Option.isSome_iff_exists.mp (krmLookup_isSome_of_head0 m b hh)
  rw [krmLookup_krmInsert m a b k v w0 (keys_pairwise m hs) hab hw0, if_neg hk]

/-- Lookup after an insert, inside the inserted range. -/
theorem krmLookup_krmInsert_in {V : Type} (m : KRMap V) (a b k E : Nat) (v : V)
    (hinv : krmInv m E) (hab : a < b) (hk1 : a ≤ k) (hk2 : k < b) :
    krmLookup (krmInsert m a b v) k = some v := by
  obtain ⟨hs, hh, -⟩ := hinv
  obtain ⟨w0, hw0⟩ := Option.isSome_iff_exists.mp (krmLookup_isSome_of_head0 m b hh)
  rw [krmLookup_krmInsert m a b k v w0 (keys_pairwise m hs) hab hw0, if_pos ⟨hk1, hk2⟩]

/-- Stored intervals of a sorted map are nonempty. -/
theorem krmIntervals_lt {V : Type} (m : KRMap V) (iv : Nat × Nat × V)
    (hs : m.Pairwise (fun p q => p.1 < q.1)) (hm : iv ∈ krmIntervals m) :
    iv.1 < iv.2.1 := by
  induction m with
  | nil => simp [krmIntervals] at hm
  | cons p rest ih =>
    cases rest with
    | nil => simp [krmIntervals] at hm
    | cons q t =>
      obtain ⟨c, v⟩ := p
      obtain ⟨d, u⟩ := q
      rw [List.pairwise_cons] at hs
      have hm2 : iv = (c, d, v) ∨ iv ∈ krmIntervals ((d, u) :: t) := by
        unfold krmIntervals at hm ⊢
        simpa using hm
      rcases hm2 with he | hm2
      · subst he
        exact hs.1 (d, u) (by simp)
      · exact ih hs.2 hm2

/-- Every stored interval of the tail map starts at or after the head key. -/
theorem krmIntervals_start_ge {V : Type} (d : Nat) (u : V) (t : KRMap V)
    (hs : ((d, u) :: t).Pairwise (fun p q => p.1 < q.1))
    (iv : Nat × Nat × V) (hm : iv ∈ krmIntervals ((d, u) :: t)) : d ≤ iv.1 := by
  have hmem : (iv.1, iv.2.2) ∈ (d, u) :: t := mem_of_mem_krmIntervals _ _ hm
  rw [List.pairwise_cons] at hs
  rcases List.mem_cons.mp hmem with he | hmem2
  · have h1 : iv.1 = d := congrArg Prod.fst he
    omega
  · have h2 : d < iv.1 := hs.1 _ hmem2
    omega

/-- In a sorted map, the stored interval containing a key is unique. -/
theorem krmIntervals_unique {V : Type} (m : KRMap V)
    (hs : m.Pairwise (fun p q => p.1 < q.1)) (iv1 iv2 : Nat × Nat × V) (k : Nat)
    (h1 : iv1 ∈ krmIntervals m) (h2 : iv2 ∈ krmIntervals m)
    (hc1 : iv1.1 ≤ k ∧ k < iv1.2.1) (hc2 : iv2.1 ≤ k ∧ k < iv2.2.1) : iv1 = iv2 := by
  induction m with
  | nil => simp [krmIntervals] at h1
  | cons p rest ih =>
    cases rest with
    | nil => simp [krmIntervals] at h1
    | cons q t =>
      obtain ⟨c, v⟩ := p
      obtain ⟨d, u⟩ := q
      have hm1 : iv1 = (c, d, v) ∨ iv1 ∈ krmIntervals ((d, u) :: t) := by
        unfold krmIntervals at h1 ⊢
        simpa using h1
      have hm2 : iv2 = (c, d, v) ∨ iv2 ∈ krmIntervals ((d, u) :: t) := by
        unfold krmIntervals at h2 ⊢
        simpa using h2
      rw [List.pairwise_cons] at hs
      rcases hm1 with he1 | hm1 <;> rcases hm2 with he2 | hm2
      · rw [he1, he2]
      · exfalso
        have hd : d ≤ iv2.1 := krmIntervals_start_ge d u t hs.2 iv2 hm2
        have hkd : k < d := by
          rw [he1] at hc1
          exact hc1.2
        have h21 : iv2.1 ≤ k := hc2.1
        omega
      · exfalso
        have hd : d ≤ iv1.1 := krmIntervals_start_ge d u t hs.2 iv1 hm1
        have hkd : k < d := by
          rw [he2] at hc2
          exact hc2.2
        have h11 : iv1.1 ≤ k := hc1.1
        omega
      · exact ih hs.2 hm1 hm2

/-- Membership in `intersectingRanges`. -/
theorem krmIntersecting_mem {V : Type} (m : KRMap V) (x y : Nat) (iv : Nat × Nat × V) :
    iv ∈ krmIntersecting m x y ↔ iv ∈ krmIntervals m ∧ x < iv.2.1 ∧ iv.1 < y := by
  unfold krmIntersecting
  rw [List.mem_filter]
  simp

/-- Every key of the queried range is contained in exactly one intersecting
interval, whose value is the lookup. -/
theorem exists_intersecting {V : Type} (m : KRMap V) (a b E k : Nat)
    (hinv : krmInv m E) (hk1 : a ≤ k) (hk2 : k < b) (hbE : b ≤ E) :
    ∃ iv ∈ krmIntersecting m a b, iv.1 ≤ k ∧ k < iv.2.1
      ∧ krmLookup m k = some iv.2.2 := by
  obtain ⟨hs, hh, pE, hpE, hE⟩ := hinv
  have hhead : ∃ p, m.head? = some p ∧ p.1 ≤ k := by
    cases m with
    | nil => simp at hh
    | cons p rest =>
      simp only [List.head?_cons, Option.map_some'] at hh
      injection hh with hh
      exact ⟨p, rfl, by omega⟩
  have hup : ∃ p ∈ m, k < p.1 := ⟨pE, hpE, by omega⟩
  obtain ⟨iv, hiv, hivk1, hivk2⟩ := exists_interval_of_lt m k hs hhead hup
  exact ⟨iv, (krmIntersecting_mem m a b iv).mpr ⟨hiv, by omega, by omega⟩, hivk1, hivk2,
    krmLookup_of_mem_intervals m iv k hs hiv hivk1 hivk2⟩

/-- The insert fold of `addAssignment` preserves the map invariant. -/
theorem foldl_krmInsert_inv {V : Type} (L : List ((Nat × Nat) × V)) :
    ∀ (mb : KRMap V) (E : Nat), krmInv mb E → (∀ p ∈ L, p.1.1 < p.1.2) →
    krmInv (L.foldl (fun acc r => krmInsert acc r.1.1 r.1.2 r.2) mb) E := by
  induction L with
  | nil =>
    intro mb E hinv _
    exact hinv
  | cons p L ih =>
    intro mb E hinv hL
    simp only [List.foldl_cons]
    exact ih _ E (krmInv_krmInsert2 mb p.1.1 p.1.2 E p.2 hinv (hL p (by simp)))
      (fun q hq => hL q (by simp [hq]))

/-- Keys contained in none of the folded ranges keep their value. -/
theorem foldl_krmInsert_lookup_out {V : Type} (L : List ((Nat × Nat) × V)) :
    ∀ (mb : KRMap V) (E k : Nat), krmInv mb E → (∀ p ∈ L, p.1.1 < p.1.2) →
    (∀ p ∈ L, ¬ (p.1.1 ≤ k ∧ k < p.1.2)) →
    krmLookup (L.foldl (fun acc r => krmInsert acc r.1.1 r.1.2 r.2) mb) k
      = krmLookup mb k := by
  induction L with
  | nil =>
    intro mb E k _ _ _
    rfl
  | cons p L ih =>
    intro mb E k hinv hL hout
    simp only [List.foldl_cons]
    rw [ih _ E k (krmInv_krmInsert2 mb p.1.1 p.1.2 E p.2 hinv (hL p (by simp)))
      (fun q hq => hL q (by simp [hq])) (fun q hq => hout q (by simp [hq]))]
    exact krmLookup_krmInsert_out mb p.1.1 p.1.2 k E p.2 hinv (hL p (by simp))
      (hout p (by simp))

/-- If some folded range contains `k` and every folded range containing `k`
carries the value `w`, the fold maps `k` to `w`. -/
theorem foldl_krmInsert_lookup_in {V : Type} (L : List ((Nat × Nat) × V)) :
    ∀ (mb : KRMap V) (E k : Nat) (w : V), krmInv mb E → (∀ p ∈ L, p.1.1 < p.1.2) →
    (∃ p ∈ L, p.1.1 ≤ k ∧ k < p.1.2) →
    (∀ p ∈ L, p.1.1 ≤ k ∧ k < p.1.2 → p.2 = w) →
    krmLookup (L.foldl (fun acc r => krmInsert acc r.1.1 r.1.2 r.2) mb) k = some w := by
  induction L with
  | nil =>
    intro mb E k w _ _ hc _
    simp at hc
  | cons p L ih =>
    intro mb E k w hinv hL hc hval
    simp only [List.foldl_cons]
    have hinv2 : krmInv (krmInsert mb p.1.1 p.1.2 p.2) E :=
      krmInv_krmInsert2 mb p.1.1 p.1.2 E p.2 hinv (hL p (by simp))
    by_cases hrest : ∃ q ∈ L, q.1.1 ≤ k ∧ k < q.1.2
    · exact ih _ E k w hinv2 (fun q hq => hL q (by simp [hq])) hrest
        (fun q hq hqk => hval q (by simp [hq]) hqk)
    · have hpk : p.1.1 ≤ k ∧ k < p.1.2 := by
        obtain ⟨q, hq, hqk⟩ := hc
        rcases List.mem_cons.mp hq with he | hq2
        · exact he ▸ hqk
        · exact absurd ⟨q, hq2, hqk⟩ hrest
      rw [foldl_krmInsert_lookup_out L _ E k hinv2 (fun q hq => hL q (by simp [hq]))
        (fun q hq hqk => hrest ⟨q, hq, hqk⟩)]
      rw [krmLookup_krmInsert_in mb p.1.1 p.1.2 k E p.2 hinv (hL p (by simp)) hpk.1 hpk.2]
      rw [hval p (by simp) hpk]

/-- part_001:1617-1619: if any intersecting interval carries exactly the
incoming `(epoch, seqno)` while the incoming worker is valid, the scan hits
the `ASSERT` (the source does not require the workers to differ). -/
theorem addAssignmentScan_abort (newId : Nat) (newEpoch newSeqno : Int) (a b : Nat)
    (l : List (Nat × Nat × Assignment)) (iv : Nat × Nat × Assignment) (hm : iv ∈ l)
    (h0 : newId ≠ 0) (he : iv.2.2.epoch = newEpoch) (hs : iv.2.2.seqno = newSeqno) :
    addAssignmentScan newId newEpoch newSeqno a b l = none := by
  induction l with
  | nil => simp at hm
  | cons hd rest ih =>
    obtain ⟨s, e, ov⟩ := hd
    simp only [addAssignmentScan]
    rcases List.mem_cons.mp hm with hh | hm2
    · subst hh
      have he2 : ov.epoch = newEpoch := he
      have hs2 : ov.seqno = newSeqno := hs
      have hnn : ¬ assignNewer newEpoch newSeqno ov := by
        unfold assignNewer
        omega
      rw [if_neg hnn, if_pos ⟨h0, he2, hs2⟩]
    · rw [ih hm2]
      split_ifs <;> rfl

/-- Characterisation of a successful scan: the `newer` re-insert list is the
filter-map of the strictly newer intervals (with the forced-reassign special
case blanking the worker), and `allNewer` implies every interval was newer
and non-special. -/
theorem addAssignmentScan_some_spec (newId : Nat) (newEpoch newSeqno : Int) (a b : Nat)
    (l : List (Nat × Nat × Assignment)) :
    ∀ (newer : List ((Nat × Nat) × Assignment)) (allNewer : Bool)
      (ood : List (Nat × Nat × Nat)),
    addAssignmentScan newId newEpoch newSeqno a b l = some (newer, allNewer, ood) →
    newer = l.filterMap (fun jv =>
        if assignNewer newEpoch newSeqno jv.2.2 then
          some ((jv.1, jv.2.1),
            if assignSpecial newId newEpoch newSeqno a b jv then
              ({ worker := 0, epoch := jv.2.2.epoch, seqno := jv.2.2.seqno } : Assignment)
            else jv.2.2)
        else none)
      ∧ (allNewer = true → ∀ jv ∈ l, assignNewer newEpoch newSeqno jv.2.2
          ∧ ¬ assignSpecial newId newEpoch newSeqno a b jv) := by
  induction l with
  | nil =>
    intro newer allNewer ood h
    simp only [addAssignmentScan, Option.some.injEq, Prod.mk.injEq] at h
    obtain ⟨h1, h2, h3⟩ := h
    subst h1
    refine ⟨rfl, ?_⟩
    intro _ jv hjv
    simp at hjv
  | cons hd rest ih =>
    intro newer allNewer ood h
    obtain ⟨s, e, ov⟩ := hd
    simp only [addAssignmentScan] at h
    by_cases h1 : assignNewer newEpoch newSeqno ov
    · rw [if_pos h1] at h
      by_cases h2 : assignSpecial newId newEpoch newSeqno a b (s, e, ov)
      · rw [if_pos h2] at h
        cases hrec : addAssignmentScan newId newEpoch newSeqno a b rest with
        | none =>
          rw [hrec] at h
          exact absurd h (by simp)
        | some t =>
          obtain ⟨nw, an, od⟩ := t
          rw [hrec] at h
          simp only [Option.some.injEq, Prod.mk.injEq] at h
          obtain ⟨hN, hA, hO⟩ := h
          obtain ⟨ihN, ihA⟩ := ih nw an od hrec
          constructor
          · rw [← hN, ihN]
            simp only [List.filterMap_cons]
            simp [h1, h2]
          · intro hAt
            rw [← hA] at hAt
            exact Bool.noConfusion hAt
      · rw [if_neg h2] at h
        cases hrec : addAssignmentScan newId newEpoch newSeqno a b rest with
        | none =>
          rw [hrec] at h
          exact absurd h (by simp)
        | some t =>
          obtain ⟨nw, an, od⟩ := t
          rw [hrec] at h
          simp only [Option.some.injEq, Prod.mk.injEq] at h
          obtain ⟨hN, hA, hO⟩ := h
          obtain ⟨ihN, ihA⟩ := ih nw an od hrec
          constructor
          · rw [← hN, ihN]
            simp only [List.filterMap_cons]
            simp [h1, h2]
          · intro hAt
            intro jv hjv
            rcases List.mem_cons.mp hjv with hh | hjv2
            · subst hh
              exact ⟨h1, h2⟩
            · exact ihA (by rw [hA]; exact hAt) jv hjv2
    · rw [if_neg h1] at h
      by_cases h2 : newId ≠ 0 ∧ ov.epoch = newEpoch ∧ ov.seqno = newSeqno
      · rw [if_pos h2] at h
        exact absurd h (by simp)
      · rw [if_neg h2] at h
        cases hrec : addAssignmentScan newId newEpoch newSeqno a b rest with
        | none =>
          rw [hrec] at h
          exact absurd h (by simp)
        | some t =>
          obtain ⟨nw, an, od⟩ := t
          rw [hrec] at h
          simp only [Option.some.injEq, Prod.mk.injEq] at h
          obtain ⟨hN, hA, hO⟩ := h
          obtain ⟨ihN, ihA⟩ := ih nw an od hrec
          constructor
          · rw [← hN, ihN]
            simp only [List.filterMap_cons]
            simp [h1]
          · intro hAt
            rw [← hA] at hAt
            exact Bool.noConfusion hAt

/-- Decode membership in the `newer` re-insert list. -/
theorem scanNewer_decode (newId : Nat) (newEpoch newSeqno : Int) (a b : Nat)
    (l : List (Nat × Nat × Assignment)) (p : (Nat × Nat) × Assignment)
    (hp : p ∈ l.filterMap (fun jv =>
        if assignNewer newEpoch newSeqno jv.2.2 then
          some ((jv.1, jv.2.1),
            if assignSpecial newId newEpoch newSeqno a b jv then
              ({ worker := 0, epoch := jv.2.2.epoch, seqno := jv.2.2.seqno } : Assignment)
            else jv.2.2)
        else none)) :
    ∃ jv ∈ l, assignNewer newEpoch newSeqno jv.2.2 ∧ p.1 = (jv.1, jv.2.1)
      ∧ p.2 = (if assignSpecial newId newEpoch newSeqno a b jv then
          ({ worker := 0, epoch := jv.2.2.epoch, seqno := jv.2.2.seqno } : Assignment)
        else jv.2.2) := by
  obtain ⟨jv, hm, hf⟩ := List.mem_filterMap.mp hp
  have hf2 : (if assignNewer newEpoch newSeqno jv.2.2 then
      some ((jv.1, jv.2.1),
        if assignSpecial newId newEpoch newSeqno a b jv then
          ({ worker := 0, epoch := jv.2.2.epoch, seqno := jv.2.2.seqno } : Assignment)
        else jv.2.2)
    else none) = some p := hf
  by_cases h1 : assignNewer newEpoch newSeqno jv.2.2
  · rw [if_pos h1] at hf2
    injection hf2 with hf2
    exact ⟨jv, hm, h1, congrArg Prod.fst hf2.symm, congrArg Prod.snd hf2.symm⟩
  · rw [if_neg h1] at hf2
    exact absurd hf2 (by simp)

/-- Encode: every strictly newer interval contributes its re-insert entry. -/
theorem scanNewer_encode (newId : Nat) (newEpoch newSeqno : Int) (a b : Nat)
    (l : List (Nat × Nat × Assignment)) (jv : Nat × Nat × Assignment) (hm : jv ∈ l)
    (h1 : assignNewer newEpoch newSeqno jv.2.2) :
    ((jv.1, jv.2.1),
      (if assignSpecial newId newEpoch newSeqno a b jv then
        ({ worker := 0, epoch := jv.2.2.epoch, seqno := jv.2.2.seqno } : Assignment)
      else jv.2.2))
      ∈ l.filterMap (fun jv => if assignNewer newEpoch newSeqno jv.2.2 then
          some ((jv.1, jv.2.1),
            if assignSpecial newId newEpoch newSeqno a b jv then
              ({ worker := 0, epoch := jv.2.2.epoch, seqno := jv.2.2.seqno } : Assignment)
            else jv.2.2)
        else none) :=
  List.mem_filterMap.mpr ⟨jv, hm, if_pos h1⟩

/-- **C2 (counterexample)**: the forced-reassign special case of
`addAssignment` (part_001:1606-1610) maps the range to
`(UID(), old_epoch, old_seqno)`, which is neither the previous assignment
nor the incoming one, so a key of `newRange` does not always map to the
(epoch, seqno)-larger of the two. -/
theorem addAssignment_special_counterexample :
    ((addAssignment [(0, ({ worker := 5, epoch := 3, seqno := 7 } : Assignment)),
        (10, { worker := 5, epoch := 3, seqno := 7 })] 0 10 9 0 1).map
      (fun r => krmLookup r.1 0))
      = some (some ({ worker := 0, epoch := 3, seqno := 7 } : Assignment))
    ∧ ({ worker := 0, epoch := 3, seqno := 7 } : Assignment)
        ≠ { worker := 5, epoch := 3, seqno := 7 }
    ∧ ({ worker := 0, epoch := 3, seqno := 7 } : Assignment)
        ≠ { worker := 9, epoch := 0, seqno := 1 } := by
  decide

/-- **C2 (amended)**: after `addAssignment(map, [a,b), newId, newEpoch,
newSeqno)` succeeds, keys outside `[a,b)` read their old value, and each key
of `[a,b)` reads the (epoch, seqno)-larger of its previous assignment and
the incoming one — except in the forced-reassign special case
(sentinel `(0,1)`, exact bounds, differing valid worker), where it reads
`(UID(), old_epoch, old_seqno)`.  If any intersecting interval carries
exactly `(newEpoch, newSeqno)` while `newId` is valid, recovery aborts
(the source does not require the two workers to differ). -/
theorem addAssignment_spec (map : KRMap Assignment) (a b E : Nat) (newId : Nat)
    (newEpoch newSeqno : Int) (hinv : krmInv map E) (hab : a < b) (hbE : b ≤ E) :
    ((∃ iv ∈ krmIntersecting map a b, newId ≠ 0 ∧ iv.2.2.epoch = newEpoch
        ∧ iv.2.2.seqno = newSeqno) →
      addAssignment map a b newId newEpoch newSeqno = none)
    ∧ ∀ m2 ood, addAssignment map a b newId newEpoch newSeqno = some (m2, ood) →
        (∀ k, k < a ∨ b ≤ k → krmLookup m2 k = krmLookup map k)
        ∧ (∀ k, a ≤ k → k < b →
            ∃ iv ∈ krmIntersecting map a b, iv.1 ≤ k ∧ k < iv.2.1
              ∧ krmLookup map k = some iv.2.2
              ∧ krmLookup m2 k = some (
                  if assignNewer newEpoch newSeqno iv.2.2 then
                    if assignSpecial newId newEpoch newSeqno a b iv then
                      ({ worker := 0, epoch := iv.2.2.epoch,
                          seqno := iv.2.2.seqno } : Assignment)
                    else iv.2.2
                  else ({ worker := newId, epoch := newEpoch,
                          seqno := newSeqno } : Assignment))) := by
  obtain ⟨hsort, hhead0, hEx⟩ := id hinv
  constructor
  · rintro ⟨iv, hm, h0, he, hs⟩
    unfold addAssignment
    rw [addAssignmentScan_abort newId newEpoch newSeqno a b _ iv hm h0 he hs]
  · intro m2 ood hsome
    cases hscan : addAssignmentScan newId newEpoch newSeqno a b
        (krmIntersecting map a b) with
    | none =>
      unfold addAssignment at hsome
      rw [hscan] at hsome
      exact absurd hsome (by simp)
    | some t =>
      obtain ⟨newer, allNewer, ood0⟩ := t
      obtain ⟨hNewer, hAll⟩ := addAssignmentScan_some_spec newId newEpoch newSeqno a b
        (krmIntersecting map a b) newer allNewer ood0 hscan
      have heq : addAssignment map a b newId newEpoch newSeqno
          = (if ¬ allNewer then
              some ((newer.foldl (fun acc r => krmInsert acc r.1.1 r.1.2 r.2)
                  (krmInsert map a b ⟨newId, newEpoch, newSeqno⟩)),
                ood0 ++ (if newer ≠ [] ∧ newId ≠ 0 then [(newId, a, b)] else []))
            else some (map, ood0 ++ (if newId ≠ 0 then [(newId, a, b)] else []))) := by
        unfold addAssignment
        rw [hscan]
      rw [heq] at hsome
      cases allNewer with
      | true =>
        rw [if_neg (by simp)] at hsome
        simp only [Option.some.injEq, Prod.mk.injEq] at hsome
        obtain ⟨hm2, -⟩ := hsome
        subst hm2
        constructor
        · intro k _
          rfl
        · intro k hk1 hk2
          obtain ⟨iv, hmem, hik1, hik2, hlk⟩ :=
            exists_intersecting map a b E k hinv hk1 hk2 hbE
          refine ⟨iv, hmem, hik1, hik2, hlk, ?_⟩
          obtain ⟨hnew, hnsp⟩ := hAll rfl iv hmem
          rw [if_pos hnew, if_neg hnsp]
          exact hlk
      | false =>
        rw [if_pos (by simp)] at hsome
        simp only [Option.some.injEq, Prod.mk.injEq] at hsome
        obtain ⟨hm2, -⟩ := hsome
        subst hm2
        have hbase : krmInv (krmInsert map a b ⟨newId, newEpoch, newSeqno⟩) E :=
          krmInv_krmInsert2 map a b E _ hinv hab
        have hLlt : ∀ p ∈ newer, p.1.1 < p.1.2 := by
          intro p hp
          rw [hNewer] at hp
          obtain ⟨jv, hjm, hjnew, hp1, hp2⟩ :=
            scanNewer_decode newId newEpoch newSeqno a b _ p hp
          have hjint : jv ∈ krmIntervals map :=
            ((krmIntersecting_mem map a b jv).mp hjm).1
          have hlt := krmIntervals_lt map jv hsort hjint
          rw [hp1]
          exact hlt
        constructor
        · -- keys outside the incoming range keep their value
          intro k hk
          by_cases hcov : ∃ p ∈ newer, p.1.1 ≤ k ∧ k < p.1.2
          · obtain ⟨p0, hp0, hpk0⟩ := hcov
            have hp0m := hp0
            rw [hNewer] at hp0m
            obtain ⟨jv0, hjm0, hjnew0, hq1, hq2⟩ :=
              scanNewer_decode newId newEpoch newSeqno a b _ p0 hp0m
            have hjint0 : jv0 ∈ krmIntervals map :=
              ((krmIntersecting_mem map a b jv0).mp hjm0).1
            have hcont0 : jv0.1 ≤ k ∧ k < jv0.2.1 := by
              rw [hq1] at hpk0
              exact hpk0
            have hnsp0 : ¬ assignSpecial newId newEpoch newSeqno a b jv0 := by
              intro hsp
              obtain ⟨-, -, -, -, hsa, hsb⟩ := hsp
              rcases hk with hk | hk
              · omega
              · omega
            have hlk0 : krmLookup map k = some jv0.2.2 :=
              krmLookup_of_mem_intervals map jv0 k hsort hjint0 hcont0.1 hcont0.2
            rw [foldl_krmInsert_lookup_in newer _ E k jv0.2.2 hbase hLlt
              ⟨p0, hp0, hpk0⟩ ?_, hlk0]
            intro q hq hqk
            have hqm := hq
            rw [hNewer] at hqm
            obtain ⟨jv, hjm, hjnew, hr1, hr2⟩ :=
              scanNewer_decode newId newEpoch newSeqno a b _ q hqm
            have hjint : jv ∈ krmIntervals map :=
              ((krmIntersecting_mem map a b jv).mp hjm).1
            have hcont : jv.1 ≤ k ∧ k < jv.2.1 := by
              rw [hr1] at hqk
              exact hqk
            have hje : jv = jv0 :=
              krmIntervals_unique map hsort jv jv0 k hjint hjint0 hcont hcont0
            rw [hr2, hje, if_neg hnsp0]
          · rw [foldl_krmInsert_lookup_out newer _ E k hbase hLlt
              (fun p hp hpk => hcov ⟨p, hp, hpk⟩)]
            exact krmLookup_krmInsert_out map a b k E _ hinv hab
              (by rcases hk with hk | hk <;> omega)
        · -- keys of the incoming range
          intro k hk1 hk2
          obtain ⟨iv, hmem, hik1, hik2, hlk⟩ :=
            exists_intersecting map a b E k hinv hk1 hk2 hbE
          have hiint : iv ∈ krmIntervals map :=
            ((krmIntersecting_mem map a b iv).mp hmem).1
          refine ⟨iv, hmem, hik1, hik2, hlk, ?_⟩
          by_cases hnew : assignNewer newEpoch newSeqno iv.2.2
          · rw [if_pos hnew]
            have hpmem : ((iv.1, iv.2.1),
                (if assignSpecial newId newEpoch newSeqno a b iv then
                  ({ worker := 0, epoch := iv.2.2.epoch,
                      seqno := iv.2.2.seqno } : Assignment)
                else iv.2.2)) ∈ newer := by
              rw [hNewer]
              exact scanNewer_encode newId newEpoch newSeqno a b _ iv hmem hnew
            rw [foldl_krmInsert_lookup_in newer _ E k
              (if assignSpecial newId newEpoch newSeqno a b iv then
                ({ worker := 0, epoch := iv.2.2.epoch,
                    seqno := iv.2.2.seqno } : Assignment)
              else iv.2.2) hbase hLlt ⟨_, hpmem, hik1, hik2⟩ ?_]
            intro q hq hqk
            have hqm := hq
            rw [hNewer] at hqm
            obtain ⟨jv, hjm, hjnew, hr1, hr2⟩ :=
              scanNewer_decode newId newEpoch newSeqno a b _ q hqm
            have hjint : jv ∈ krmIntervals map :=
              ((krmIntersecting_mem map a b jv).mp hjm).1
            have hcont : jv.1 ≤ k ∧ k < jv.2.1 := by
              rw [hr1] at hqk
              exact hqk
            have hje : jv = iv :=
              krmIntervals_unique map hsort jv iv k hjint hiint hcont ⟨hik1, hik2⟩
            rw [hr2, hje]
          · rw [if_neg hnew]
            have hnone : ∀ q ∈ newer, ¬ (q.1.1 ≤ k ∧ k < q.1.2) := by
              intro q hq hqk
              have hqm := hq
              rw [hNewer] at hqm
              obtain ⟨jv, hjm, hjnew, hr1, hr2⟩ :=
                scanNewer_decode newId newEpoch newSeqno a b _ q hqm
              have hjint : jv ∈ krmIntervals map :=
                ((krmIntersecting_mem map a b jv).mp hjm).1
              have hcont : jv.1 ≤ k ∧ k < jv.2.1 := by
                rw [hr1] at hqk
                exact hqk
              have hje : jv = iv :=
                krmIntervals_unique map hsort jv iv k hjint hiint hcont ⟨hik1, hik2⟩
              rw [hje] at hjnew
              exact hnew hjnew
            rw [foldl_krmInsert_lookup_out newer _ E k hbase hLlt hnone]
            exact krmLookup_krmInsert_in map a b k E _ hinv hab hk1 hk2

/-- **C2 (witness)**. -/
theorem addAssignment_spec_witness :
    krmInv [(0, ({ worker := 5, epoch := 3, seqno := 7 } : Assignment)),
        (10, { worker := 5, epoch := 3, seqno := 7 })] 10
    ∧ ∃ iv ∈ krmIntersecting [(0, ({ worker := 5, epoch := 3, seqno := 7 } : Assignment)),
        (10, { worker := 5, epoch := 3, seqno := 7 })] 0 5,
        iv.1 ≤ 2 ∧ 2 < iv.2.1
        ∧ krmLookup [(0, ({ worker := 5, epoch := 3, seqno := 7 } : Assignment)),
            (10, { worker := 5, epoch := 3, seqno := 7 })] 2 = some iv.2.2
        ∧ krmLookup [(0, ({ worker := 9, epoch := 4, seqno := 1 } : Assignment)),
            (5, { worker := 5, epoch := 3, seqno := 7 }),
            (10, { worker := 5, epoch := 3, seqno := 7 })] 2 = some (
            if assignNewer 4 1 iv.2.2 then
              if assignSpecial 9 4 1 0 5 iv then
                ({ worker := 0, epoch := iv.2.2.epoch,
                    seqno := iv.2.2.seqno } : Assignment)
              else iv.2.2
            else ({ worker := 9, epoch := 4, seqno := 1 } : Assignment)) :=
  ⟨by decide,
    ((addAssignment_spec [(0, { worker := 5, epoch := 3, seqno := 7 }),
        (10, { worker := 5, epoch := 3, seqno := 7 })] 0 5 10 9 4 1 (by decide)
        (by decide) (by decide)).2
      [(0, { worker := 9, epoch := 4, seqno := 1 }),
        (5, { worker := 5, epoch := 3, seqno := 7 }),
        (10, { worker := 5, epoch := 3, seqno := 7 })]
      [(5, 0, 10)] (by decide)).2 2 (by decide) (by decide)⟩

/-- The active flag of a two-boundary DB range state. -/
theorem dbActive_pair (x y : Nat) (v w : Bool) (k : Nat) :
    dbActive [(x, v), (y, w)] k = if x ≤ k ∧ k < y then v else false := by
  unfold dbActive
  rw [dbSeg_cons x v (y, w) [] k]
  by_cases h : x ≤ k ∧ k < y
  · rw [if_pos h, if_pos h]
    rfl
  · rw [if_neg h, if_neg h]
    have hnone : dbSeg [(y, w)] k = none := rfl
    rw [hnone]
    rfl

/-- The initial `knownBlobRanges` map satisfies the invariant. -/
theorem initKnownBlobRanges_inv (nEnd : Nat) (hn : 0 < nEnd) :
    krmInv (initKnownBlobRanges nEnd) nEnd := by
  unfold krmInv initKnownBlobRanges
  exact ⟨by simp [List.pairwise_cons, hn], rfl, (nEnd, false), by simp, le_refl _⟩

/-- **C7 (counterexample)**: with DB states `S1 = [1,2) active`, `S2 = ∅`,
`S3 = [1,2) active` over `[0,3)`, key `1` lies in the union of all emitted
added ranges AND in the union of all emitted removed ranges, so the set
`⋃added \ ⋃removed` does not contain it — yet `1 ∈ S3 \ S0`.  The union
formula of the claim is wrong; only ordered replay is correct. -/
theorem updateClientBlobRanges_union_counterexample :
    coveredBy (joinedAdds (updateSteps (initKnownBlobRanges 3) 3
        [[(1, true), (2, false)], [], [(1, true), (2, false)]]).2) 1 = true
    ∧ coveredBy (joinedRemoves (updateSteps (initKnownBlobRanges 3) 3
        [[(1, true), (2, false)], [], [(1, true), (2, false)]]).2) 1 = true
    ∧ dbActive [(1, true), (2, false)] 1 = true
    ∧ krmLookup (initKnownBlobRanges 3) 1 = some false := by
  decide

/-- **C7 (amended)**: for every sequence of DB range states applied by
successive `updateClientBlobRanges` calls, replaying the emitted
`(added, removed)` pairs in order (later steps overriding earlier ones)
turns the initial per-key state into the final one, and the final
`knownBlobRanges` agrees with the LAST DB state `Sn` on every key —
regardless of the intermediate states. -/
theorem updateClientBlobRanges_roundtrip (dbs : List (List (Nat × Bool))) :
    ∀ (m0 : KRMap Bool) (nEnd : Nat), krmInv m0 nEnd → 0 < nEnd →
    (∀ db ∈ dbs, (db.map Prod.fst).Pairwise (· < ·) ∧ ∀ p ∈ db, p.1 ≤ nEnd) →
    krmInv (updateSteps m0 nEnd dbs).1 nEnd
    ∧ (∀ k, k < nEnd → krmLookup (updateSteps m0 nEnd dbs).1 k
        = some (applyEmissions ((krmLookup m0 k).getD false)
            (updateSteps m0 nEnd dbs).2 k))
    ∧ (∀ dbLast, dbs.getLast? = some dbLast → ∀ k, k < nEnd →
        krmLookup (updateSteps m0 nEnd dbs).1 k = some (dbActive dbLast k)) := by
  induction dbs with
  | nil =>
    intro m0 nEnd hinv hn hdb
    refine ⟨hinv, ?_, ?_⟩
    · intro k hk
      obtain ⟨hs0, hh0, -⟩ := id hinv
      obtain ⟨w, hw⟩ :=
        Option.isSome_iff_exists.mp (krmLookup_isSome_of_head0 m0 k hh0)
      show krmLookup m0 k
        = some (applyEmissions ((krmLookup m0 k).getD false) [] k)
      rw [hw]
      rfl
    · intro dbLast hlast
      simp at hlast
  | cons db rest ih =>
    intro m0 nEnd hinv hn hdb
    obtain ⟨hsdb, hledb⟩ := hdb db (by simp)
    obtain ⟨inv1, lk1, ad1, rm1⟩ :=
      updateClientBlobRanges_spec m0 nEnd db hinv hn hsdb hledb
    obtain ⟨ihInv, ihLk, ihLast⟩ :=
      ih (updateClientBlobRanges m0 nEnd db).1 nEnd inv1 hn
        (fun d hd => hdb d (by simp [hd]))
    refine ⟨?_, ?_, ?_⟩
    · exact ihInv
    · intro k hk
      have hacc : (if coveredBy (updateClientBlobRanges m0 nEnd db).2.1 k then true
          else if coveredBy (updateClientBlobRanges m0 nEnd db).2.2 k then false
          else (krmLookup m0 k).getD false) = dbActive db k := by
        by_cases hadds : coveredBy (updateClientBlobRanges m0 nEnd db).2.1 k = true
        · rw [if_pos hadds]
          obtain ⟨ha1, -⟩ := (ad1 k).mp hadds
          exact ha1.symm
        · rw [if_neg hadds]
          by_cases hrem : coveredBy (updateClientBlobRanges m0 nEnd db).2.2 k = true
          · rw [if_pos hrem]
            obtain ⟨hr1, -, -⟩ := (rm1 k).mp hrem
            exact hr1.symm
          · rw [if_neg hrem]
            obtain ⟨hs0, hh0, -⟩ := id hinv
            obtain ⟨w, hw⟩ :=
              Option.isSome_iff_exists.mp (krmLookup_isSome_of_head0 m0 k hh0)
            rw [hw]
            cases hdbk : dbActive db k with
            | true =>
              cases w with
              | false =>
                exfalso
                exact hadds ((ad1 k).mpr ⟨hdbk, hw⟩)
              | true => rfl
            | false =>
              cases w with
              | false => rfl
              | true =>
                exfalso
                exact hrem ((rm1 k).mpr ⟨hdbk, hk, hw⟩)
      show krmLookup (updateSteps (updateClientBlobRanges m0 nEnd db).1 nEnd rest).1 k
          = some (applyEmissions ((krmLookup m0 k).getD false)
              (((updateClientBlobRanges m0 nEnd db).2.1,
                (updateClientBlobRanges m0 nEnd db).2.2)
                :: (updateSteps (updateClientBlobRanges m0 nEnd db).1 nEnd rest).2) k)
      rw [ihLk k hk, lk1 k hk, Option.getD_some, ← hacc]
      rfl
    · intro dbLast hlast k hk
      cases rest with
      | nil =>
        simp only [List.getLast?_singleton, Option.some.injEq] at hlast
        subst hlast
        exact lk1 k hk
      | cons db2 rest2 =>
        rw [List.getLast?_cons_cons] at hlast
        exact ihLast dbLast hlast k hk

/-- **C7 (witness)**. -/
theorem updateClientBlobRanges_roundtrip_witness :
    krmInv (initKnownBlobRanges 3) 3
    ∧ krmLookup (updateSteps (initKnownBlobRanges 3) 3
        [[(1, true), (2, false)], [], [(1, true), (2, false)]]).1 1
      = some (applyEmissions ((krmLookup (initKnownBlobRanges 3) 1).getD false)
          (updateSteps (initKnownBlobRanges 3) 3
            [[(1, true), (2, false)], [], [(1, true), (2, false)]]).2 1)
    ∧ krmLookup (updateSteps (initKnownBlobRanges 3) 3
        [[(1, true), (2, false)], [], [(1, true), (2, false)]]).1 1
      = some (dbActive [(1, true), (2, false)] 1) :=
  ⟨by decide,
    (updateClientBlobRanges_roundtrip
        [[(1, true), (2, false)], [], [(1, true), (2, false)]]
        (initKnownBlobRanges 3) 3 (by decide) (by decide) (by decide)).2.1 1 (by decide),
    (updateClientBlobRanges_roundtrip
        [[(1, true), (2, false)], [], [(1, true), (2, false)]]
        (initKnownBlobRanges 3) 3 (by decide) (by decide) (by decide)).2.2
      [(1, true), (2, false)] (by decide) 1 (by decide)⟩

/-- **C8 (counterexample)**: with `A,B,C,D = 1,2,3,4` over `[0,5)`, the
second update emits NO added ranges (`[B,C)` was already active inside
`[A,D)`), not `added = [[B,C)]` as the claim states; the removed ranges are
`[A,B)` and `[C,D)` as claimed. -/
theorem updateranges_counterexample :
    (updateClientBlobRanges
        (updateClientBlobRanges (initKnownBlobRanges 5) 5 [(1, true), (4, false)]).1
        5 [(2, true), (3, false)]).2.1 = []
    ∧ (updateClientBlobRanges
        (updateClientBlobRanges (initKnownBlobRanges 5) 5 [(1, true), (4, false)]).1
        5 [(2, true), (3, false)]).2.2 = [(1, 2), (3, 4)]
    ∧ coveredBy (updateClientBlobRanges
        (updateClientBlobRanges (initKnownBlobRanges 5) 5 [(1, true), (4, false)]).1
        5 [(2, true), (3, false)]).2.1 2 = false := by
  decide

/-- **C8 (amended)**: for keys `A < B < C < D` inside the key space, after
`[A,D)` has been made active, an update whose DB state makes exactly `[B,C)`
active emits NO added ranges (every key of `[B,C)` was already active) and
emits removed ranges covering exactly `[A,B) ∪ [C,D)`. -/
theorem updateranges_AD_BC (A B C D nEnd : Nat)
    (hAB : A < B) (hBC : B < C) (hCD : C < D) (hD : D < nEnd) :
    (∀ k, coveredBy (updateClientBlobRanges
        (updateClientBlobRanges (initKnownBlobRanges nEnd) nEnd
          [(A, true), (D, false)]).1 nEnd [(B, true), (C, false)]).2.1 k = false)
    ∧ (∀ k, coveredBy (updateClientBlobRanges
        (updateClientBlobRanges (initKnownBlobRanges nEnd) nEnd
          [(A, true), (D, false)]).1 nEnd [(B, true), (C, false)]).2.2 k = true
        ↔ ((A ≤ k ∧ k < B) ∨ (C ≤ k ∧ k < D))) := by
  have hn : 0 < nEnd := by omega
  have hinv0 : krmInv (initKnownBlobRanges nEnd) nEnd := initKnownBlobRanges_inv nEnd hn
  have hs1 : (([(A, true), (D, false)] : List (Nat × Bool)).map Prod.fst).Pairwise
      (· < ·) := by
    simp [List.pairwise_cons]
    omega
  have hle1 : ∀ p ∈ ([(A, true), (D, false)] : List (Nat × Bool)), p.1 ≤ nEnd := by
    intro p hp
    rcases List.mem_cons.mp hp with h | h
    · subst h
      show A ≤ nEnd
      omega
    · simp only [List.mem_singleton] at h
      subst h
      show D ≤ nEnd
      omega
  obtain ⟨inv1, lk1, -, -⟩ :=
    updateClientBlobRanges_spec (initKnownBlobRanges nEnd) nEnd
      [(A, true), (D, false)] hinv0 hn hs1 hle1
  have hs2 : (([(B, true), (C, false)] : List (Nat × Bool)).map Prod.fst).Pairwise
      (· < ·) := by
    simp [List.pairwise_cons]
    omega
  have hle2 : ∀ p ∈ ([(B, true), (C, false)] : List (Nat × Bool)), p.1 ≤ nEnd := by
    intro p hp
    rcases List.mem_cons.mp hp with h | h
    · subst h
      show B ≤ nEnd
      omega
    · simp only [List.mem_singleton] at h
      subst h
      show C ≤ nEnd
      omega
  obtain ⟨-, -, ad2, rm2⟩ :=
    updateClientBlobRanges_spec
      (updateClientBlobRanges (initKnownBlobRanges nEnd) nEnd
        [(A, true), (D, false)]).1 nEnd [(B, true), (C, false)] inv1 hn hs2 hle2
  constructor
  · intro k
    cases hcov : coveredBy (updateClientBlobRanges
        (updateClientBlobRanges (initKnownBlobRanges nEnd) nEnd
          [(A, true), (D, false)]).1 nEnd [(B, true), (C, false)]).2.1 k with
    | false => rfl
    | true =>
      exfalso
      obtain ⟨hact, hold⟩ := (ad2 k).mp hcov
      rw [dbActive_pair] at hact
      have hk : B ≤ k ∧ k < C := by
        by_contra hn2
        rw [if_neg hn2] at hact
        exact Bool.noConfusion hact
      have hk2 : k < nEnd := by omega
      rw [lk1 k hk2] at hold
      injection hold with hold
      rw [dbActive_pair, if_pos (by omega : A ≤ k ∧ k < D)] at hold
      exact Bool.noConfusion hold
  · intro k
    rw [rm2 k]
    constructor
    · rintro ⟨hact, hk2, hold⟩
      rw [dbActive_pair] at hact
      rw [lk1 k hk2] at hold
      injection hold with hold
      rw [dbActive_pair] at hold
      have hAD : A ≤ k ∧ k < D := by
        by_contra hn2
        rw [if_neg hn2] at hold
        exact Bool.noConfusion hold
      have hBCn : ¬ (B ≤ k ∧ k < C) := by
        intro hbc
        rw [if_pos hbc] at hact
        exact Bool.noConfusion hact
      omega
    · rintro (⟨hk1, hk2⟩ | ⟨hk1, hk2⟩)
      · refine ⟨?_, by omega, ?_⟩
        · rw [dbActive_pair, if_neg (by omega)]
        · rw [lk1 k (by omega), dbActive_pair, if_pos (by omega : A ≤ k ∧ k < D)]
      · refine ⟨?_, by omega, ?_⟩
        · rw [dbActive_pair, if_neg (by omega)]
        · rw [lk1 k (by omega), dbActive_pair, if_pos (by omega : A ≤ k ∧ k < D)]

/-- **C8 (witness)**. -/
theorem updateranges_AD_BC_witness :
    (1:Nat) < 2 ∧ (2:Nat) < 3 ∧ (3:Nat) < 4 ∧ (4:Nat) < 5
    ∧ (∀ k, coveredBy (updateClientBlobRanges
        (updateClientBlobRanges (initKnownBlobRanges 5) 5
          [(1, true), (4, false)]).1 5 [(2, true), (3, false)]).2.1 k = false)
    ∧ (∀ k, coveredBy (updateClientBlobRanges
        (updateClientBlobRanges (initKnownBlobRanges 5) 5
          [(1, true), (4, false)]).1 5 [(2, true), (3, false)]).2.2 k = true
        ↔ ((1 ≤ k ∧ k < 2) ∨ (3 ≤ k ∧ k < 4))) :=
  ⟨by decide, by decide, by decide, by decide,
    (updateranges_AD_BC 1 2 3 4 5 (by decide) (by decide) (by decide) (by decide)).1,
    (updateranges_AD_BC 1 2 3 4 5 (by decide) (by decide) (by decide) (by decide)).2⟩
